import Mathlib

/-!
# Verification of the wanked daily-results processing pipeline

Shallow embedding of the core of the `Bakuenjin/wanked` Discord Wordle
ranking bot, together with proofs and refutations of the frozen claims
about its specification.

The embedding covers:
* the pairwise ELO rating engine (`src/services/eloService.ts`),
* the daily-results pipeline and its persistence layer
  (`eloService.ts`, the game/player repositories, the message handler),
* the result-row tokenizer of the message parser
  (`src/services/statsService.ts`, `parseResultRow`),
* the game-date computation of `parseWordleMessage`.

JavaScript `number` arithmetic inside the rating engine is modelled by
exact real arithmetic (`ℝ`), with `Math.round` modelled as
`x ↦ ⌊x + 1/2⌋` (JavaScript rounds halves towards `+∞`).  Database
integer columns are modelled as `ℤ`/`ℕ`, SQL tables as lists of rows.
-/

namespace Wanked

/-! ## Pairwise ELO rating engine (`src/services/eloService.ts`) -/

/-- A participant handed to `calculatePairwiseElo`
(`{ playerId: number; currentElo: number; guessCount: number }`). -/
structure EloParticipant where
  playerId : Nat
  currentElo : ℝ
  guessCount : Nat

/-- `calculateExpectedScore(ratingA, ratingB)`:
`1 / (1 + Math.pow(10, (ratingB - ratingA) / 400))`. -/
noncomputable def calculateExpectedScore (ratingA ratingB : ℝ) : ℝ :=
  1 / (1 + (10 : ℝ) ^ ((ratingB - ratingA) / 400))

/-- `determineMatchResult(guessCount1, guessCount2)`: lower guess count
wins (scores `1`), equal guess counts tie at `0.5`.  The scores are the
exact rationals `0`, `1/2`, `1`. -/
def determineMatchResult (guessCount1 guessCount2 : Nat) : ℚ × ℚ :=
  if guessCount1 < guessCount2 then (1, 0)
  else if guessCount1 > guessCount2 then (0, 1)
  else (1/2, 1/2)

/-- JavaScript `Math.round`: rounds to the nearest integer, halves
towards `+∞`. -/
noncomputable def jsRound (x : ℝ) : ℤ :=
  ⌊x + 1/2⌋

/-- The pair of ELO changes `(change1, change2)` produced by one
iteration of the inner matchup loop of `calculatePairwiseElo` for
players `p` and `q` with scaled K-factor `sK`. -/
noncomputable def pairUpdate (sK : ℝ) (p q : EloParticipant) : ℝ × ℝ :=
  (sK * (((determineMatchResult p.guessCount q.guessCount).1 : ℝ) -
      calculateExpectedScore p.currentElo q.currentElo),
   sK * (((determineMatchResult p.guessCount q.guessCount).2 : ℝ) -
      calculateExpectedScore q.currentElo p.currentElo))

/-- First component of `pairUpdate`: the change credited to the first
player of the matchup. -/
noncomputable def pairContrib (sK : ℝ) (p q : EloParticipant) : ℝ :=
  (pairUpdate sK p q).1

/-- Indexing into the participants array (`participants[i]`); out of
range accesses do not occur in the loops. -/
def partAt (ps : List EloParticipant) (i : Nat) : EloParticipant :=
  ps.getD i ⟨0, 0, 0⟩

/-- The value accumulated in the `eloChanges` map for key `pid` by the
double loop `for i; for j in (i+1)..n` of `calculatePairwiseElo`,
before the final rounding pass.  Each pair `(i, j)` adds `change1` to
the entry of `participants[i].playerId` and `change2` to the entry of
`participants[j].playerId`; every entry starts at `0`. -/
noncomputable def rawDelta (ps : List EloParticipant) (sK : ℝ) (pid : Nat) : ℝ :=
  ∑ i ∈ Finset.range ps.length, ∑ j ∈ Finset.Ico (i + 1) ps.length,
    ((if (partAt ps i).playerId = pid then (pairUpdate sK (partAt ps i) (partAt ps j)).1 else 0) +
     (if (partAt ps j).playerId = pid then (pairUpdate sK (partAt ps i) (partAt ps j)).2 else 0))

/-- `calculatePairwiseElo(participants, config)`, read at key `pid` of
the returned map: zero when there are fewer than two participants,
otherwise the accumulated change for `pid` under the scaled K-factor
`kFactor / (n - 1)`, rounded at the end. -/
noncomputable def calculatePairwiseElo (ps : List EloParticipant) (kFactor : ℝ)
    (pid : Nat) : ℤ :=
  if ps.length < 2 then 0
  else jsRound (rawDelta ps (kFactor / ((ps.length : ℝ) - 1)) pid)

/-! ### Basic lemmas about the engine's arithmetic -/

/-- The expected score is strictly between `0` and `1`. -/
lemma calculateExpectedScore_pos (a b : ℝ) : 0 < calculateExpectedScore a b := by
  unfold calculateExpectedScore
  have h : (0 : ℝ) < (10 : ℝ) ^ ((b - a) / 400) :=
    Real.rpow_pos_of_pos (by norm_num) _
  positivity

lemma calculateExpectedScore_le_one (a b : ℝ) : calculateExpectedScore a b ≤ 1 := by
  unfold calculateExpectedScore
  have h : (0 : ℝ) < (10 : ℝ) ^ ((b - a) / 400) :=
    Real.rpow_pos_of_pos (by norm_num) _
  rw [div_le_one (by linarith)]
  linarith

/-- Equal ratings give expected score `1/2`. -/
lemma calculateExpectedScore_self (r : ℝ) : calculateExpectedScore r r = 1/2 := by
  unfold calculateExpectedScore
  rw [sub_self, zero_div, Real.rpow_zero]
  norm_num

/-- Both match scores lie in `[0, 1]`. -/
lemma determineMatchResult_fst_mem (g1 g2 : Nat) :
    0 ≤ (determineMatchResult g1 g2).1 ∧ (determineMatchResult g1 g2).1 ≤ 1 := by
  unfold determineMatchResult
  split_ifs <;> norm_num

/-- The second score of a matchup is the first score of the reversed
matchup. -/
lemma determineMatchResult_snd (g1 g2 : Nat) :
    (determineMatchResult g1 g2).2 = (determineMatchResult g2 g1).1 := by
  unfold determineMatchResult
  rcases Nat.lt_trichotomy g1 g2 with h | h | h
  · simp [h, Nat.lt_asymm h]
  · simp [h]
  · simp [h, Nat.lt_asymm h, Nat.lt_irrefl]

/-- A strictly lower guess count never lowers the score against any
fixed opponent. -/
lemma determineMatchResult_fst_mono {g1 g2 : Nat} (h : g1 < g2) (g : Nat) :
    (determineMatchResult g2 g).1 ≤ (determineMatchResult g1 g).1 := by
  unfold determineMatchResult
  split_ifs <;> first | (exfalso; omega) | norm_num

/-- `pairUpdate` is antisymmetric in the sense that the change credited
to the second player is the first-player change of the swapped call. -/
lemma pairUpdate_snd (sK : ℝ) (p q : EloParticipant) :
    (pairUpdate sK p q).2 = pairContrib sK q p := by
  unfold pairContrib pairUpdate
  rw [determineMatchResult_snd]

/-- A single matchup moves a player by at most the scaled K-factor. -/
lemma abs_pairContrib_le (sK : ℝ) (hK : 0 ≤ sK) (p q : EloParticipant) :
    |pairContrib sK p q| ≤ sK := by
  unfold pairContrib pairUpdate
  have hs := determineMatchResult_fst_mem p.guessCount q.guessCount
  have he1 := calculateExpectedScore_pos p.currentElo q.currentElo
  have he2 := calculateExpectedScore_le_one p.currentElo q.currentElo
  have hcast1 : (0 : ℝ) ≤ ((determineMatchResult p.guessCount q.guessCount).1 : ℝ) := by
    exact_mod_cast hs.1
  have hcast2 : ((determineMatchResult p.guessCount q.guessCount).1 : ℝ) ≤ 1 := by
    exact_mod_cast hs.2
  rw [abs_mul, abs_of_nonneg hK]
  calc sK * |((determineMatchResult p.guessCount q.guessCount).1 : ℝ) -
        calculateExpectedScore p.currentElo q.currentElo|
      ≤ sK * 1 := by
        apply mul_le_mul_of_nonneg_left _ hK
        rw [abs_le]
        constructor <;> linarith
    _ = sK := mul_one sK

/-! ### Rounding lemmas -/

lemma jsRound_mono {x y : ℝ} (h : x ≤ y) : jsRound x ≤ jsRound y :=
  Int.floor_le_floor (by linarith)

lemma jsRound_intCast (z : ℤ) : jsRound (z : ℝ) = z := by
  unfold jsRound
  rw [add_comm, Int.floor_add_int]
  norm_num

/-- The magnitude of the rounded value is bounded by the rounding of
any bound on the magnitude. -/
lemma abs_jsRound_le {x B : ℝ} (h : |x| ≤ B) : |jsRound x| ≤ jsRound B := by
  rw [abs_le] at h
  unfold jsRound
  rw [abs_le]
  constructor
  · rw [Int.le_floor]
    push_cast
    have hfl := Int.sub_one_lt_floor (B + 1/2)
    linarith [h.1]
  · exact Int.floor_le_floor (by linarith [h.2])

/-! ### Reformulating the double loop as one sum per participant -/

/-- Splitting a sum over `range n` minus one point into the parts below
and above that point. -/
lemma sum_erase_split (n i : ℕ) (hi : i < n) (h : ℕ → ℝ) :
    ∑ j ∈ (Finset.range n).erase i, h j
      = ∑ j ∈ Finset.Ico (i + 1) n, h j + ∑ j ∈ Finset.range i, h j := by
  have key : ∑ j ∈ Finset.range n, h j
      = ∑ j ∈ Finset.range i, h j + (h i + ∑ j ∈ Finset.Ico (i + 1) n, h j) := by
    rw [Finset.range_eq_Ico,
      ← Finset.sum_Ico_consecutive h (Nat.zero_le i) (le_of_lt hi),
      Finset.sum_eq_sum_Ico_succ_bot hi h, ← Finset.range_eq_Ico]
  have herase : h i + ∑ j ∈ (Finset.range n).erase i, h j = ∑ j ∈ Finset.range n, h j :=
    Finset.add_sum_erase _ h (Finset.mem_range.mpr hi)
  linarith

/-- The map accumulated by the nested pair loops, described per entry:
the entry of `pid` collects one `pairContrib` term for every ordered
pair whose first component carries `pid`. -/
lemma rawDelta_eq_sum (ps : List EloParticipant) (sK : ℝ) (pid : Nat) :
    rawDelta ps sK pid
      = ∑ i ∈ Finset.range ps.length,
          if (partAt ps i).playerId = pid
          then ∑ j ∈ (Finset.range ps.length).erase i, pairContrib sK (partAt ps i) (partAt ps j)
          else 0 := by
  have hpull : ∀ (c : Prop) [Decidable c] (s : Finset ℕ) (g : ℕ → ℝ),
      (∑ j ∈ s, if c then g j else 0) = if c then ∑ j ∈ s, g j else 0 := by
    intro c inst s g
    split_ifs <;> simp
  unfold rawDelta
  have e1 : ∀ i j : ℕ,
      ((if (partAt ps i).playerId = pid
          then (pairUpdate sK (partAt ps i) (partAt ps j)).1 else 0) +
       (if (partAt ps j).playerId = pid
          then (pairUpdate sK (partAt ps i) (partAt ps j)).2 else 0))
      = (if (partAt ps i).playerId = pid
          then pairContrib sK (partAt ps i) (partAt ps j) else 0) +
        (if (partAt ps j).playerId = pid
          then pairContrib sK (partAt ps j) (partAt ps i) else 0) := by
    intro i j
    rw [pairUpdate_snd]
    rfl
  simp only [e1]
  rw [Finset.sum_congr rfl fun i _ => Finset.sum_add_distrib, Finset.sum_add_distrib]
  have e2 : ∑ i ∈ Finset.range ps.length, ∑ j ∈ Finset.Ico (i + 1) ps.length,
        (if (partAt ps j).playerId = pid then pairContrib sK (partAt ps j) (partAt ps i) else 0)
      = ∑ i ∈ Finset.range ps.length, ∑ j ∈ Finset.range i,
          (if (partAt ps i).playerId = pid then pairContrib sK (partAt ps i) (partAt ps j) else 0) := by
    rw [Finset.range_eq_Ico, Finset.sum_Ico_Ico_comm' 0 ps.length]
  rw [e2, ← Finset.sum_add_distrib]
  apply Finset.sum_congr rfl
  intro i hi
  rw [hpull, hpull]
  split_ifs with hc <;> simp [sum_erase_split ps.length i (Finset.mem_range.mp hi)]

/-- If `pid` is the id of the participant at index `t` and no other
index carries it, the accumulated change for `pid` is the sum of `t`'s
matchup contributions against every other index. -/
lemma rawDelta_eq_personal (ps : List EloParticipant) (sK : ℝ) (t : ℕ)
    (ht : t < ps.length)
    (huniq : ∀ u, u < ps.length → u ≠ t → (partAt ps u).playerId ≠ (partAt ps t).playerId) :
    rawDelta ps sK (partAt ps t).playerId
      = ∑ j ∈ (Finset.range ps.length).erase t, pairContrib sK (partAt ps t) (partAt ps j) := by
  rw [rawDelta_eq_sum]
  rw [Finset.sum_eq_single t]
  · rw [if_pos rfl]
  · intro u hu hut
    rw [if_neg (huniq u (Finset.mem_range.mp hu) hut)]
  · intro hnot
    exact absurd (Finset.mem_range.mpr ht) hnot

/-! ### Claim C2: the scaled K-factor bounds total movement by `kFactor` -/

/-- C2: with at least two participants, distinct participant ids and a
positive integer K-factor (the configuration parses it with
`parseInt`), every participant's final integer delta has magnitude at
most `kFactor`: the `1/(n-1)` scaling makes one player's total
movement in a round be bounded by the configured K-factor. -/
theorem pairwiseElo_abs_delta_le_kFactor (ps : List EloParticipant) (K : ℕ) (hK : 0 < K)
    (t : ℕ) (ht : t < ps.length)
    (huniq : ∀ u, u < ps.length → u ≠ t → (partAt ps u).playerId ≠ (partAt ps t).playerId) :
    |calculatePairwiseElo ps (K : ℝ) (partAt ps t).playerId| ≤ (K : ℤ) := by
  unfold calculatePairwiseElo
  split_ifs with hlen
  · simp
  · push_neg at hlen
    have hn1 : (1 : ℝ) ≤ (ps.length : ℝ) - 1 := by
      have h2 : (2 : ℝ) ≤ (ps.length : ℝ) := by exact_mod_cast hlen
      linarith
    set sK : ℝ := (K : ℝ) / ((ps.length : ℝ) - 1) with hsK
    have hsKnn : 0 ≤ sK := div_nonneg (Nat.cast_nonneg K) (by linarith)
    rw [rawDelta_eq_personal ps sK t ht huniq]
    have hcard : ((Finset.range ps.length).erase t).card = ps.length - 1 := by
      rw [Finset.card_erase_of_mem (Finset.mem_range.mpr ht), Finset.card_range]
    have hbound :
        |∑ j ∈ (Finset.range ps.length).erase t, pairContrib sK (partAt ps t) (partAt ps j)|
          ≤ (K : ℝ) := by
      calc |∑ j ∈ (Finset.range ps.length).erase t, pairContrib sK (partAt ps t) (partAt ps j)|
          ≤ ∑ j ∈ (Finset.range ps.length).erase t, |pairContrib sK (partAt ps t) (partAt ps j)| :=
            Finset.abs_sum_le_sum_abs _ _
        _ ≤ ((Finset.range ps.length).erase t).card • sK :=
            Finset.sum_le_card_nsmul _ _ sK fun j _ => abs_pairContrib_le sK hsKnn _ _
        _ = ((ps.length - 1 : ℕ) : ℝ) * sK := by rw [hcard, nsmul_eq_mul]
        _ = (K : ℝ) := by
            rw [hsK, Nat.cast_sub (by omega), Nat.cast_one]
            field_simp
    calc |jsRound (∑ j ∈ (Finset.range ps.length).erase t,
            pairContrib sK (partAt ps t) (partAt ps j))|
        ≤ jsRound (K : ℝ) := abs_jsRound_le hbound
      _ = (K : ℤ) := by
          have h := jsRound_intCast (K : ℤ)
          push_cast at h
          exact h

/-- Witness for C2 at a concrete round: two players rated 1000 with 2
and 5 guesses, `kFactor = 32`. -/
theorem pairwiseElo_abs_delta_le_kFactor_witness :
    |calculatePairwiseElo [⟨1, 1000, 2⟩, ⟨2, 1000, 5⟩] ((32 : ℕ) : ℝ)
        (partAt [⟨1, 1000, 2⟩, ⟨2, 1000, 5⟩] 0).playerId| ≤ ((32 : ℕ) : ℤ) :=
  pairwiseElo_abs_delta_le_kFactor [⟨1, 1000, 2⟩, ⟨2, 1000, 5⟩] 32 (by norm_num) 0
    (by norm_num)
    (by
      intro u hu hut
      simp only [List.length_cons, List.length_nil] at hu
      interval_cases u
      · exact absurd rfl hut
      · simp [partAt])

/-! ### Claim C7: monotonicity at equal ratings -/

/-- C7: among two participants with equal current rating (and distinct
participant ids in the round), the one with the strictly lower guess
count receives a final delta at least as large as the other's. -/
theorem pairwiseElo_mono_equal_ratings (ps : List EloParticipant) (k : ℝ) (hk : 0 ≤ k)
    (i j : ℕ) (hi : i < ps.length) (hj : j < ps.length) (hij : i ≠ j)
    (huniqi : ∀ u, u < ps.length → u ≠ i → (partAt ps u).playerId ≠ (partAt ps i).playerId)
    (huniqj : ∀ u, u < ps.length → u ≠ j → (partAt ps u).playerId ≠ (partAt ps j).playerId)
    (helo : (partAt ps i).currentElo = (partAt ps j).currentElo)
    (hguess : (partAt ps i).guessCount < (partAt ps j).guessCount) :
    calculatePairwiseElo ps k (partAt ps j).playerId
      ≤ calculatePairwiseElo ps k (partAt ps i).playerId := by
  have hlen : ¬ ps.length < 2 := by omega
  unfold calculatePairwiseElo
  rw [if_neg hlen, if_neg hlen]
  apply jsRound_mono
  have hn1 : (1 : ℝ) ≤ (ps.length : ℝ) - 1 := by
    have h2 : (2 : ℝ) ≤ (ps.length : ℝ) := by exact_mod_cast not_lt.mp hlen
    linarith
  set sK : ℝ := k / ((ps.length : ℝ) - 1) with hsKdef
  have hsK : 0 ≤ sK := div_nonneg hk (by linarith)
  rw [rawDelta_eq_personal ps sK i hi huniqi, rawDelta_eq_personal ps sK j hj huniqj]
  have hmemi : i ∈ (Finset.range ps.length).erase j :=
    Finset.mem_erase.mpr ⟨hij, Finset.mem_range.mpr hi⟩
  have hmemj : j ∈ (Finset.range ps.length).erase i :=
    Finset.mem_erase.mpr ⟨Ne.symm hij, Finset.mem_range.mpr hj⟩
  rw [← Finset.add_sum_erase _ _ hmemi, ← Finset.add_sum_erase _ _ hmemj,
    Finset.erase_right_comm]
  apply add_le_add
  · have h1 : determineMatchResult (partAt ps j).guessCount (partAt ps i).guessCount
        = (0, 1) := by
      unfold determineMatchResult
      rw [if_neg (by omega), if_pos (by omega)]
    have h2 : determineMatchResult (partAt ps i).guessCount (partAt ps j).guessCount
        = (1, 0) := by
      unfold determineMatchResult
      rw [if_pos hguess]
    unfold pairContrib pairUpdate
    rw [h1, h2, helo, calculateExpectedScore_self]
    push_cast
    nlinarith [hsK]
  · apply Finset.sum_le_sum
    intro u _
    unfold pairContrib pairUpdate
    rw [helo]
    apply mul_le_mul_of_nonneg_left _ hsK
    have hm := determineMatchResult_fst_mono hguess (partAt ps u).guessCount
    have hmr : ((determineMatchResult (partAt ps j).guessCount (partAt ps u).guessCount).1 : ℝ)
        ≤ ((determineMatchResult (partAt ps i).guessCount (partAt ps u).guessCount).1 : ℝ) := by
      exact_mod_cast hm
    linarith

/-- Witness for C7: equal ratings 1000, guesses 2 and 5, `kFactor = 32`. -/
theorem pairwiseElo_mono_equal_ratings_witness :
    calculatePairwiseElo [⟨1, 1000, 2⟩, ⟨2, 1000, 5⟩] (32 : ℝ)
        (partAt [⟨1, 1000, 2⟩, ⟨2, 1000, 5⟩] 1).playerId
      ≤ calculatePairwiseElo [⟨1, 1000, 2⟩, ⟨2, 1000, 5⟩] (32 : ℝ)
        (partAt [⟨1, 1000, 2⟩, ⟨2, 1000, 5⟩] 0).playerId :=
  pairwiseElo_mono_equal_ratings [⟨1, 1000, 2⟩, ⟨2, 1000, 5⟩] 32 (by norm_num)
    0 1 (by norm_num) (by norm_num) (by omega)
    (by
      intro u hu hut
      simp only [List.length_cons, List.length_nil] at hu
      interval_cases u
      · exact absurd rfl hut
      · simp [partAt])
    (by
      intro u hu hut
      simp only [List.length_cons, List.length_nil] at hu
      interval_cases u
      · simp [partAt]
      · exact absurd rfl hut)
    (by simp [partAt])
    (by simp [partAt])

/-! ### Claim C8: swapping two participants' data swaps their deltas -/

/-- `pairContrib` only reads ratings and guess counts, never ids. -/
lemma pairContrib_congr (sK : ℝ) {p p' q q' : EloParticipant}
    (h1 : p.currentElo = p'.currentElo) (h2 : p.guessCount = p'.guessCount)
    (h3 : q.currentElo = q'.currentElo) (h4 : q.guessCount = q'.guessCount) :
    pairContrib sK p q = pairContrib sK p' q' := by
  unfold pairContrib pairUpdate
  rw [h1, h2, h3, h4]

/-- One direction of the swap symmetry: after exchanging the rating and
guess data of indices `i` and `j`, the participant at index `i`
receives exactly the delta the participant at index `j` received
before. -/
lemma pairwiseElo_swap_aux (ps qs : List EloParticipant) (k : ℝ) (i j : ℕ)
    (hi : i < ps.length) (hj : j < ps.length) (hij : i ≠ j)
    (hlen : qs.length = ps.length)
    (hother : ∀ u, u ≠ i → u ≠ j → partAt qs u = partAt ps u)
    (hqi : partAt qs i
      = ⟨(partAt ps i).playerId, (partAt ps j).currentElo, (partAt ps j).guessCount⟩)
    (hqj : partAt qs j
      = ⟨(partAt ps j).playerId, (partAt ps i).currentElo, (partAt ps i).guessCount⟩)
    (huniqi : ∀ u, u < ps.length → u ≠ i → (partAt ps u).playerId ≠ (partAt ps i).playerId)
    (huniqj : ∀ u, u < ps.length → u ≠ j → (partAt ps u).playerId ≠ (partAt ps j).playerId) :
    calculatePairwiseElo qs k (partAt ps i).playerId
      = calculatePairwiseElo ps k (partAt ps j).playerId := by
  have hids : ∀ u, (partAt qs u).playerId = (partAt ps u).playerId := by
    intro u
    by_cases hui : u = i
    · subst hui
      rw [hqi]
    · by_cases huj : u = j
      · subst huj
        rw [hqj]
      · rw [hother u hui huj]
  have hlt2 : ¬ ps.length < 2 := by omega
  have huniqq : ∀ u, u < qs.length → u ≠ i →
      (partAt qs u).playerId ≠ (partAt qs i).playerId := by
    intro u hu hui
    rw [hids u, hids i]
    exact huniqi u (hlen ▸ hu) hui
  have hpid : (partAt ps i).playerId = (partAt qs i).playerId := (hids i).symm
  unfold calculatePairwiseElo
  rw [hlen, if_neg hlt2, if_neg hlt2]
  congr 1
  rw [hpid, rawDelta_eq_personal qs _ i (hlen ▸ hi) huniqq,
    rawDelta_eq_personal ps _ j hj huniqj, hlen]
  have hmemj : j ∈ (Finset.range ps.length).erase i :=
    Finset.mem_erase.mpr ⟨Ne.symm hij, Finset.mem_range.mpr hj⟩
  have hmemi : i ∈ (Finset.range ps.length).erase j :=
    Finset.mem_erase.mpr ⟨hij, Finset.mem_range.mpr hi⟩
  rw [← Finset.add_sum_erase _ _ hmemj, ← Finset.add_sum_erase _ _ hmemi,
    Finset.erase_right_comm]
  congr 1
  · exact pairContrib_congr _ (by rw [hqi]) (by rw [hqi]) (by rw [hqj]) (by rw [hqj])
  · apply Finset.sum_congr rfl
    intro u hu
    have hui : u ≠ i := (Finset.mem_erase.mp hu).1
    have huj : u ≠ j := (Finset.mem_erase.mp (Finset.mem_erase.mp hu).2).1
    exact pairContrib_congr _ (by rw [hqi]) (by rw [hqi])
      (by rw [hother u hui huj]) (by rw [hother u hui huj])

/-- C8: exchanging the `(currentRating, guessCount)` pairs of two
participants (ids staying in place, all other participants fixed)
exactly exchanges the two final integer deltas. -/
theorem pairwiseElo_swap_symm (ps qs : List EloParticipant) (k : ℝ) (i j : ℕ)
    (hi : i < ps.length) (hj : j < ps.length) (hij : i ≠ j)
    (hlen : qs.length = ps.length)
    (hother : ∀ u, u ≠ i → u ≠ j → partAt qs u = partAt ps u)
    (hqi : partAt qs i
      = ⟨(partAt ps i).playerId, (partAt ps j).currentElo, (partAt ps j).guessCount⟩)
    (hqj : partAt qs j
      = ⟨(partAt ps j).playerId, (partAt ps i).currentElo, (partAt ps i).guessCount⟩)
    (huniqi : ∀ u, u < ps.length → u ≠ i → (partAt ps u).playerId ≠ (partAt ps i).playerId)
    (huniqj : ∀ u, u < ps.length → u ≠ j → (partAt ps u).playerId ≠ (partAt ps j).playerId) :
    calculatePairwiseElo qs k (partAt ps i).playerId
        = calculatePairwiseElo ps k (partAt ps j).playerId
    ∧ calculatePairwiseElo qs k (partAt ps j).playerId
        = calculatePairwiseElo ps k (partAt ps i).playerId := by
  constructor
  · exact pairwiseElo_swap_aux ps qs k i j hi hj hij hlen hother hqi hqj huniqi huniqj
  · exact pairwiseElo_swap_aux ps qs k j i hj hi (Ne.symm hij) hlen
      (fun u h1 h2 => hother u h2 h1) hqj hqi huniqj huniqi

/-- Witness for C8 at a concrete pair of rounds. -/
theorem pairwiseElo_swap_symm_witness :
    (calculatePairwiseElo [⟨1, 1100, 5⟩, ⟨2, 1000, 2⟩] (32 : ℝ)
        (partAt [⟨1, 1000, 2⟩, ⟨2, 1100, 5⟩] 0).playerId
      = calculatePairwiseElo [⟨1, 1000, 2⟩, ⟨2, 1100, 5⟩] (32 : ℝ)
        (partAt [⟨1, 1000, 2⟩, ⟨2, 1100, 5⟩] 1).playerId)
    ∧ (calculatePairwiseElo [⟨1, 1100, 5⟩, ⟨2, 1000, 2⟩] (32 : ℝ)
        (partAt [⟨1, 1000, 2⟩, ⟨2, 1100, 5⟩] 1).playerId
      = calculatePairwiseElo [⟨1, 1000, 2⟩, ⟨2, 1100, 5⟩] (32 : ℝ)
        (partAt [⟨1, 1000, 2⟩, ⟨2, 1100, 5⟩] 0).playerId) :=
  pairwiseElo_swap_symm [⟨1, 1000, 2⟩, ⟨2, 1100, 5⟩] [⟨1, 1100, 5⟩, ⟨2, 1000, 2⟩]
    32 0 1 (by norm_num) (by norm_num) (by omega) rfl
    (by
      intro u h0 h1
      match u with
      | 0 => exact absurd rfl h0
      | 1 => exact absurd rfl h1
      | u + 2 => rfl)
    (by simp [partAt])
    (by simp [partAt])
    (by
      intro u hu hut
      simp only [List.length_cons, List.length_nil] at hu
      interval_cases u
      · exact absurd rfl hut
      · simp [partAt])
    (by
      intro u hu hut
      simp only [List.length_cons, List.length_nil] at hu
      interval_cases u
      · simp [partAt]
      · exact absurd rfl hut)

/-! ### Claim C1: the `round(scaledK)` bound fails; the correct bound
is `round` of the whole round's movement, `(n-1) · scaledK` -/

/-- Evaluation helper: `jsRound x = z` once `x + 1/2` lies in `[z, z+1)`. -/
lemma jsRound_eq_of (x : ℝ) (z : ℤ) (h1 : (z : ℝ) ≤ x + 1/2) (h2 : x + 1/2 < z + 1) :
    jsRound x = z :=
  Int.floor_eq_iff.mpr ⟨h1, h2⟩

/-- The round bound for the accumulated (unrounded) total of one
participant with a unique id: at most `(n-1)` matchups, each moving
the participant by at most the scaled K-factor. -/
lemma abs_rawDelta_personal_le (ps : List EloParticipant) (sK : ℝ) (hsK : 0 ≤ sK)
    (t : ℕ) (ht : t < ps.length)
    (huniq : ∀ u, u < ps.length → u ≠ t → (partAt ps u).playerId ≠ (partAt ps t).playerId) :
    |rawDelta ps sK (partAt ps t).playerId| ≤ ((ps.length - 1 : ℕ) : ℝ) * sK := by
  rw [rawDelta_eq_personal ps sK t ht huniq]
  have hcard : ((Finset.range ps.length).erase t).card = ps.length - 1 := by
    rw [Finset.card_erase_of_mem (Finset.mem_range.mpr ht), Finset.card_range]
  calc |∑ j ∈ (Finset.range ps.length).erase t, pairContrib sK (partAt ps t) (partAt ps j)|
      ≤ ∑ j ∈ (Finset.range ps.length).erase t, |pairContrib sK (partAt ps t) (partAt ps j)| :=
        Finset.abs_sum_le_sum_abs _ _
    _ ≤ ((Finset.range ps.length).erase t).card • sK :=
        Finset.sum_le_card_nsmul _ _ sK fun j _ => abs_pairContrib_le sK hsK _ _
    _ = ((ps.length - 1 : ℕ) : ℝ) * sK := by rw [hcard, nsmul_eq_mul]

/-- The round used to refute C1: four participants rated 1000 with
guess counts 2, 3, 4, 5 (the spec's Scenario A data). -/
def c1Round : List EloParticipant :=
  [⟨1, 1000, 2⟩, ⟨2, 1000, 3⟩, ⟨3, 1000, 4⟩, ⟨4, 1000, 5⟩]

/-- In the C1 round with `kFactor = 32`, the winner's final delta is
`16`: three matchup wins worth `(32/3) · (1 - 1/2)` each. -/
lemma c1Round_delta :
    calculatePairwiseElo c1Round (32 : ℝ) (partAt c1Round 0).playerId = 16 := by
  have hlen : c1Round.length = 4 := rfl
  have huniq0 : ∀ u, u < c1Round.length → u ≠ 0 →
      (partAt c1Round u).playerId ≠ (partAt c1Round 0).playerId := by
    intro u hu h0
    rw [hlen] at hu
    interval_cases u
    · exact absurd rfl h0
    · simp [partAt, c1Round]
    · simp [partAt, c1Round]
    · simp [partAt, c1Round]
  unfold calculatePairwiseElo
  rw [rawDelta_eq_personal c1Round _ 0 (by rw [hlen]; omega) huniq0, hlen]
  rw [if_neg (by omega)]
  have hset : (Finset.range 4).erase 0 = {1, 2, 3} := by decide
  rw [hset, Finset.sum_insert (by decide), Finset.sum_insert (by decide),
    Finset.sum_singleton]
  unfold pairContrib pairUpdate
  simp only [partAt, c1Round, List.getD_cons_zero, List.getD_cons_succ]
  norm_num [determineMatchResult, calculateExpectedScore_self]
  apply jsRound_eq_of <;> norm_num

/-- `round(scaledK)` for the C1 round: `round(32/3) = 11`. -/
lemma c1Round_scaledK_round :
    jsRound ((32 : ℝ) / ((c1Round.length : ℝ) - 1)) = 11 := by
  have hlen : c1Round.length = 4 := rfl
  rw [hlen]
  apply jsRound_eq_of <;> norm_num

/-- C1 counterexample: in the concrete round `c1Round` with
`kFactor = 32` (so `scaledK = 32/3` and `round(scaledK) = 11`), the
winner's final delta is `16`, so the claimed bound
`|delta| ≤ round(scaledK)` is violated. -/
theorem pairwiseElo_scaledK_bound_counterexample :
    ¬ |calculatePairwiseElo c1Round (32 : ℝ) (partAt c1Round 0).playerId|
        ≤ jsRound ((32 : ℝ) / ((c1Round.length : ℝ) - 1)) := by
  rw [c1Round_delta, c1Round_scaledK_round]
  decide

/-- C1 (amended): for a round with `n ≥ 2` participants with distinct
ids and a nonnegative K-factor, each participant's final integer delta
is bounded in magnitude by the rounding of `(n-1) · scaledK` (the
scaled K-factor times the number of matchups the participant is in;
`scaledK` alone bounds only a single matchup's contribution). -/
theorem pairwiseElo_abs_delta_le_round_total (ps : List EloParticipant) (k : ℝ)
    (hk : 0 ≤ k) (hlen2 : 2 ≤ ps.length) (t : ℕ) (ht : t < ps.length)
    (huniq : ∀ u, u < ps.length → u ≠ t → (partAt ps u).playerId ≠ (partAt ps t).playerId) :
    |calculatePairwiseElo ps k (partAt ps t).playerId|
      ≤ jsRound (((ps.length : ℝ) - 1) * (k / ((ps.length : ℝ) - 1))) := by
  have hn1 : (1 : ℝ) ≤ (ps.length : ℝ) - 1 := by
    have h2 : (2 : ℝ) ≤ (ps.length : ℝ) := by exact_mod_cast hlen2
    linarith
  have hsK : 0 ≤ k / ((ps.length : ℝ) - 1) := div_nonneg hk (by linarith)
  unfold calculatePairwiseElo
  rw [if_neg (by omega)]
  apply abs_jsRound_le
  have hb := abs_rawDelta_personal_le ps (k / ((ps.length : ℝ) - 1)) hsK t ht huniq
  rwa [Nat.cast_sub (by omega), Nat.cast_one] at hb

/-- Witness for the amended C1 at a concrete two-player round. -/
theorem pairwiseElo_abs_delta_le_round_total_witness :
    |calculatePairwiseElo [⟨1, 1000, 2⟩, ⟨2, 1000, 5⟩] (32 : ℝ)
        (partAt [⟨1, 1000, 2⟩, ⟨2, 1000, 5⟩] 0).playerId|
      ≤ jsRound (((([⟨1, 1000, 2⟩, ⟨2, 1000, 5⟩] : List EloParticipant).length : ℝ) - 1)
          * ((32 : ℝ) / ((([⟨1, 1000, 2⟩, ⟨2, 1000, 5⟩] : List EloParticipant).length : ℝ) - 1))) :=
  pairwiseElo_abs_delta_le_round_total [⟨1, 1000, 2⟩, ⟨2, 1000, 5⟩] 32 (by norm_num)
    (by norm_num) 0 (by norm_num)
    (by
      intro u hu hut
      simp only [List.length_cons, List.length_nil] at hu
      interval_cases u
      · exact absurd rfl hut
      · simp [partAt])

/-! ### Claim C6: the failed sentinel in matchups -/

/-- The guess-count token of a result row (`parseResultRow`): the
character captured by `([1-6x])\/6:` after lowercasing, mapped to its
numeric value, with `x` (a failed game) mapped to the sentinel `7`. -/
def guessCountOfChar (c : Char) : Nat :=
  if c = 'x' then 7 else c.toNat - '0'.toNat

/-- C6: a participant carrying the failed sentinel (an `x/6` row,
parsed as guess count `7`) scores `0` against any numeric guess count
`1..6` (which scores `1`), and two failed participants tie at `0.5`. -/
theorem failedSentinel_matchups (g : Nat) (h1 : 1 ≤ g) (h6 : g ≤ 6) :
    determineMatchResult (guessCountOfChar 'x') g = (0, 1)
    ∧ determineMatchResult g (guessCountOfChar 'x') = (1, 0)
    ∧ determineMatchResult (guessCountOfChar 'x') (guessCountOfChar 'x')
        = (1/2, 1/2) := by
  have hx : guessCountOfChar 'x' = 7 := rfl
  refine ⟨?_, ?_, ?_⟩ <;> simp only [hx] <;> unfold determineMatchResult <;>
    split_ifs <;> first | rfl | (exfalso; omega)

/-- Witness for C6 at guess count `6`. -/
theorem failedSentinel_matchups_witness :
    determineMatchResult (guessCountOfChar 'x') 6 = (0, 1)
    ∧ determineMatchResult 6 (guessCountOfChar 'x') = (1, 0)
    ∧ determineMatchResult (guessCountOfChar 'x') (guessCountOfChar 'x')
        = (1/2, 1/2) :=
  failedSentinel_matchups 6 (by decide) (by decide)

/-! ## Persistence layer and daily pipeline

The SQLite tables of the bot are modelled as lists of rows, with SQL
`INSERT` as append and `UPDATE ... WHERE id = ?` as an id-guarded map.
Dates and Discord ids are opaque strings here.  The schema file itself
is not part of the sources; the non-rating default column values of a
freshly created player (zero counters, active) follow the spec's
description of `ActivityState`, while the rating default is the
explicit `defaultElo` argument of `createPlayer`. -/

/-- A row of the `players` table. -/
structure Player where
  id : Nat
  discordId : String
  username : String
  elo : ℤ
  totalGames : Nat
  totalWins : Nat
  totalCrowns : Nat
  totalGuesses : Nat
  lastPlayed : Option String
  consecutiveInactiveDays : Nat
  isActive : Bool
deriving DecidableEq

/-- A row of the `games` table. -/
structure GameRec where
  playerId : Nat
  guessCount : Nat
  gameDate : String
  wordleNumber : Option Nat
  eloChange : ℤ
  eloBefore : ℤ
  eloAfter : ℤ
deriving DecidableEq

/-- A row of the `elo_history` table. -/
structure EloHistoryRow where
  playerId : Nat
  elo : ℤ
  gameDate : String
deriving DecidableEq

/-- A row of the `daily_summaries` table. -/
structure DailySummaryRow where
  gameDate : String
  wordleNumber : Option Nat
  participantsCount : Nat
  highestEloPlayerId : Option Nat
  lowestEloPlayerId : Option Nat
deriving DecidableEq

/-- The database.  `nextPlayerId` models the autoincrement counter of
the `players` primary key. -/
structure Store where
  players : List Player
  games : List GameRec
  eloHistory : List EloHistoryRow
  dailySummaries : List DailySummaryRow
  nextPlayerId : Nat
deriving DecidableEq

/-- `SELECT * FROM players WHERE discord_id = ?` (first row). -/
def getPlayerByDiscordId (st : Store) (discordId : String) : Option Player :=
  st.players.find? fun p => p.discordId == discordId

/-- `UPDATE players SET ... WHERE id = ?`. -/
def updateWhere (players : List Player) (playerId : Nat) (f : Player → Player) :
    List Player :=
  players.map fun p => if p.id = playerId then f p else p

/-- `updatePlayerUsername` of the player repository. -/
def updatePlayerUsername (st : Store) (playerId : Nat) (username : String) : Store :=
  { st with players := updateWhere st.players playerId fun p => { p with username } }

/-- `updatePlayerAfterGame`: sets the new rating, bumps the counters,
stamps the date and resets the activity state.  A win is a guess count
of at most 6 (the failed sentinel 7 is not a win). -/
def updatePlayerAfterGame (st : Store) (playerId : Nat) (guessCount : Nat)
    (newElo : ℤ) (gameDate : String) (hasCrown : Bool) : Store :=
  { st with players := updateWhere st.players playerId fun p =>
      { p with
        elo := newElo
        totalGames := p.totalGames + 1
        totalWins := p.totalWins + (if guessCount ≤ 6 then 1 else 0)
        totalCrowns := p.totalCrowns + (if hasCrown then 1 else 0)
        totalGuesses := p.totalGuesses + guessCount
        lastPlayed := some gameDate
        consecutiveInactiveDays := 0
        isActive := true } }

/-- `createPlayer`: inserts a fresh row with the default rating. -/
def createPlayer (st : Store) (discordId username : String) (defaultElo : ℤ) :
    Store × Player :=
  let p : Player :=
    { id := st.nextPlayerId, discordId, username, elo := defaultElo
      totalGames := 0, totalWins := 0, totalCrowns := 0, totalGuesses := 0
      lastPlayed := none, consecutiveInactiveDays := 0, isActive := true }
  ({ st with players := st.players ++ [p], nextPlayerId := st.nextPlayerId + 1 }, p)

/-- `getOrCreatePlayer`: returns the existing row for the Discord id,
refreshing its stored username if the sighted one differs, and creates
the row otherwise. -/
def getOrCreatePlayer (st : Store) (discordId username : String) (defaultElo : ℤ) :
    Store × Player :=
  match getPlayerByDiscordId st discordId with
  | some existing =>
      if existing.username ≠ username then
        (updatePlayerUsername st existing.id username, { existing with username })
      else (st, existing)
  | none => createPlayer st discordId username defaultElo

/-- `hasGameRecord`: `COUNT(*) > 0` over `games` for `(player, date)`. -/
def hasGameRecord (st : Store) (playerId : Nat) (gameDate : String) : Bool :=
  st.games.any fun g => g.playerId == playerId && g.gameDate == gameDate

/-- `recordGame`: inserts a game row; the stored `elo_change` is
computed as `eloAfter - eloBefore`. -/
def recordGame (st : Store) (playerId guessCount : Nat) (gameDate : String)
    (eloBefore eloAfter : ℤ) (wordleNumber : Option Nat) : Store :=
  { st with games := st.games ++
      [{ playerId, guessCount, gameDate, wordleNumber
         eloChange := eloAfter - eloBefore, eloBefore, eloAfter }] }

/-- `recordEloHistory`: inserts a history row. -/
def recordEloHistory (st : Store) (playerId : Nat) (elo : ℤ) (gameDate : String) :
    Store :=
  { st with eloHistory := st.eloHistory ++ [{ playerId, elo, gameDate }] }

/-- `saveDailySummary`: `INSERT OR REPLACE` keyed by the date. -/
def saveDailySummary (st : Store) (gameDate : String) (participantsCount : Nat)
    (highestEloPlayerId lowestEloPlayerId : Option Nat)
    (wordleNumber : Option Nat) : Store :=
  { st with dailySummaries :=
      (st.dailySummaries.filter fun s => !(s.gameDate == gameDate)) ++
      [{ gameDate, wordleNumber, participantsCount
         highestEloPlayerId, lowestEloPlayerId }] }

/-- `isDailyResultsProcessed`: a summary row exists for the date. -/
def isDailyResultsProcessed (st : Store) (gameDate : String) : Bool :=
  st.dailySummaries.any fun s => s.gameDate == gameDate

/-- A parsed, identity-resolved player result handed to
`processDailyResults`. -/
structure ParsedPlayerResult where
  discordId : String
  username : String
  guessCount : Nat
  hasCrown : Bool
deriving DecidableEq

/-- A participant collected by `processDailyResults`; the rating comes
from an integer database column. -/
structure PipeParticipant where
  playerId : Nat
  currentElo : ℤ
  guessCount : Nat
deriving DecidableEq

/-- The value type of the `playerMap` built by `processDailyResults`. -/
structure PlayerRoundData where
  discordId : String
  guessCount : Nat
  previousElo : ℤ
  hasCrown : Bool
deriving DecidableEq

/-- An entry of the list returned by `processDailyResults`. -/
structure EloCalculationResult where
  playerId : Nat
  discordId : String
  previousElo : ℤ
  newElo : ℤ
  eloChange : ℤ
  guessCount : Nat
deriving DecidableEq

/-- The ELO part of the bot configuration; `kFactor` and
`defaultRating` are read with `parseInt` and validated positive
resp. nonnegative. -/
structure EloConfig where
  kFactor : ℝ
  defaultRating : ℤ

/-- JavaScript `Map.set`: overwrites in place, appends new keys. -/
def setAssoc (m : List (Nat × PlayerRoundData)) (k : Nat) (v : PlayerRoundData) :
    List (Nat × PlayerRoundData) :=
  if m.any fun e => e.1 == k then m.map fun e => if e.1 = k then (k, v) else e
  else m ++ [(k, v)]

/-- JavaScript `Map.get`. -/
def getAssoc (m : List (Nat × PlayerRoundData)) (k : Nat) : Option PlayerRoundData :=
  (m.find? fun e => e.1 == k).map Prod.snd

/-- The accumulator of the collection loop of `processDailyResults`. -/
structure CollectState where
  store : Store
  participants : List PipeParticipant
  playerMap : List (Nat × PlayerRoundData)
deriving DecidableEq

/-- One iteration of the collection loop: get or create the player,
skip the result entirely when a game record already exists for the
date, otherwise add the participant and its round data. -/
def collectStep (cfg : EloConfig) (gameDate : String) (s : CollectState)
    (result : ParsedPlayerResult) : CollectState :=
  let pr := getOrCreatePlayer s.store result.discordId result.username cfg.defaultRating
  if hasGameRecord pr.1 pr.2.id gameDate then { s with store := pr.1 }
  else
    { store := pr.1
      participants := s.participants ++ [⟨pr.2.id, pr.2.elo, result.guessCount⟩]
      playerMap := setAssoc s.playerMap pr.2.id
        ⟨result.discordId, result.guessCount, pr.2.elo, result.hasCrown⟩ }

/-- The collection loop of `processDailyResults`. -/
def collectParticipants (st : Store) (results : List ParsedPlayerResult)
    (gameDate : String) (cfg : EloConfig) : CollectState :=
  results.foldl (collectStep cfg gameDate) ⟨st, [], []⟩

/-- Bridge into the rating engine: a database rating becomes a
JavaScript number. -/
noncomputable def toEloParticipant (q : PipeParticipant) : EloParticipant :=
  ⟨q.playerId, (q.currentElo : ℝ), q.guessCount⟩

/-- The accumulator of the apply loop of `processDailyResults`. -/
structure ApplyState where
  store : Store
  output : List EloCalculationResult

/-- One iteration of the apply loop: update the player row, record the
game (with the pre-round rating as `eloBefore`), record the history
sample and emit the calculation result. -/
def applyStep (eloChanges : Nat → ℤ) (playerMap : List (Nat × PlayerRoundData))
    (gameDate : String) (wordleNumber : Option Nat) (s : ApplyState)
    (q : PipeParticipant) : ApplyState :=
  let pd := (getAssoc playerMap q.playerId).getD ⟨"", 0, 0, false⟩
  let eloChange := eloChanges q.playerId
  let newElo := q.currentElo + eloChange
  let st1 := updatePlayerAfterGame s.store q.playerId pd.guessCount newElo gameDate pd.hasCrown
  let st2 := recordGame st1 q.playerId pd.guessCount gameDate q.currentElo newElo wordleNumber
  let st3 := recordEloHistory st2 q.playerId newElo gameDate
  { store := st3
    output := s.output ++
      [⟨q.playerId, pd.discordId, q.currentElo, newElo, eloChange, pd.guessCount⟩] }

/-- `processDailyResults`: collect the not-yet-recorded participants,
run the pairwise engine once over the pre-round snapshot, then apply
and persist every change. -/
noncomputable def processDailyResults (st : Store) (results : List ParsedPlayerResult)
    (gameDate : String) (cfg : EloConfig) (wordleNumber : Option Nat) :
    Store × List EloCalculationResult :=
  let c := collectParticipants st results gameDate cfg
  if c.participants.length = 0 then (c.store, [])
  else
    let eloChanges := fun pid =>
      calculatePairwiseElo (c.participants.map toEloParticipant) cfg.kFactor pid
    let final := c.participants.foldl
      (applyStep eloChanges c.playerMap gameDate wordleNumber) ⟨c.store, []⟩
    (final.store, final.output)

/-! ### Activity service, standings queries and the message handler -/

/-- `getPlayersWhoDidntPlay`: players with no game row on the date. -/
def getPlayersWhoDidntPlay (st : Store) (gameDate : String) : List Player :=
  st.players.filter fun p =>
    !(st.games.any fun g => g.playerId == p.id && g.gameDate == gameDate)

/-- `incrementInactiveDays`. -/
def incrementInactiveDays (st : Store) (playerId : Nat) : Store :=
  { st with players := updateWhere st.players playerId fun p =>
      { p with consecutiveInactiveDays := p.consecutiveInactiveDays + 1 } }

/-- `markPlayerInactive`. -/
def markPlayerInactive (st : Store) (playerId : Nat) : Store :=
  { st with players := updateWhere st.players playerId fun p =>
      { p with isActive := false } }

/-- `updatePlayerActivity`: every player without a game on the date has
the inactive-day counter bumped; active players whose bumped snapshot
counter reaches the threshold are marked inactive. -/
def updatePlayerActivity (st : Store) (gameDate : String)
    (inactivityThreshold : Nat) : Store :=
  (getPlayersWhoDidntPlay st gameDate).foldl
    (fun acc player =>
      let acc1 := incrementInactiveDays acc player.id
      if inactivityThreshold ≤ player.consecutiveInactiveDays + 1 ∧ player.isActive = true
      then markPlayerInactive acc1 player.id
      else acc1)
    st

/-- `getHighestEloPlayers`: all active players sharing the maximal
active rating. -/
def getHighestEloPlayers (st : Store) : List Player :=
  let active := st.players.filter fun p => p.isActive
  active.filter fun p => active.all fun q => q.elo ≤ p.elo

/-- `getLowestEloPlayers`: all active players with at least one game
sharing the minimal such rating. -/
def getLowestEloPlayers (st : Store) : List Player :=
  let cands := st.players.filter fun p => p.isActive && !(p.totalGames == 0)
  cands.filter fun p => cands.all fun q => p.elo ≤ q.elo

/-- The parse result consumed by the message handler. -/
structure DailyResults where
  gameDate : String
  wordleNumber : Option Nat
  results : List ParsedPlayerResult
deriving DecidableEq

/-- The bot configuration fields the pipeline reads. -/
structure BotConfigModel where
  elo : EloConfig
  inactivityThreshold : Nat

/-- How a single handler invocation ends. -/
inductive PipelineOutcome where
  | notParseable
  | skippedAlreadyProcessed
  | noCalculations
  | processed (count : Nat)
deriving DecidableEq

/-- The store-relevant behaviour of the message handler registered by
`registerMessageHandler`, for a message that already passed the
Wordle-bot author check, given the (externally computed) parse result:
the duplicate-date gate, the rating step, the activity refresh and the
summary write, in this order.  Role updates and the reply embed touch
only the chat platform, not the store. -/
noncomputable def handleWordleMessage (st : Store) (cfg : BotConfigModel)
    (parsed : Option DailyResults) : Store × PipelineOutcome :=
  match parsed with
  | none => (st, .notParseable)
  | some dailyResults =>
    if isDailyResultsProcessed st dailyResults.gameDate then
      (st, .skippedAlreadyProcessed)
    else
      let pr := processDailyResults st dailyResults.results dailyResults.gameDate
        cfg.elo dailyResults.wordleNumber
      if pr.2.length = 0 then (pr.1, .noCalculations)
      else
        let st2 := updatePlayerActivity pr.1 dailyResults.gameDate cfg.inactivityThreshold
        let highestPlayers := getHighestEloPlayers st2
        let lowestPlayers := getLowestEloPlayers st2
        let st3 := saveDailySummary st2 dailyResults.gameDate pr.2.length
          (highestPlayers.head?.map fun p => p.id)
          (lowestPlayers.head?.map fun p => p.id)
          dailyResults.wordleNumber
        (st3, .processed pr.2.length)

/-! ### Claim C3: the duplicate-date gate short-circuits with no writes -/

/-- C3: when a daily summary row already exists for the announced game
date, the handler returns the skip signal before the rating step and
the store is left completely unchanged. -/
theorem pipeline_skips_processed_date (st : Store) (cfg : BotConfigModel)
    (dr : DailyResults) (h : isDailyResultsProcessed st dr.gameDate = true) :
    handleWordleMessage st cfg (some dr) = (st, PipelineOutcome.skippedAlreadyProcessed) := by
  unfold handleWordleMessage
  simp only [h, if_true]

/-- Witness for C3: a store whose only summary row carries the
announced date. -/
theorem pipeline_skips_processed_date_witness :
    handleWordleMessage
      ⟨[], [], [], [⟨"2024-01-02", none, 3, none, none⟩], 1⟩
      ⟨⟨32, 1000⟩, 3⟩
      (some ⟨"2024-01-02", none, [⟨"a", "alice", 3, false⟩]⟩)
      = (⟨[], [], [], [⟨"2024-01-02", none, 3, none, none⟩], 1⟩,
         PipelineOutcome.skippedAlreadyProcessed) :=
  pipeline_skips_processed_date _ _ _ (by decide)

/-! ### Store-level helper lemmas -/

/-- `hasGameRecord` only reads the `games` table. -/
lemma hasGameRecord_congr {st1 st2 : Store} (h : st1.games = st2.games)
    (playerId : Nat) (gameDate : String) :
    hasGameRecord st1 playerId gameDate = hasGameRecord st2 playerId gameDate := by
  unfold hasGameRecord
  rw [h]

/-- Membership in an id-guarded update: every row of the result is the
(possibly updated) image of a row of the original table. -/
lemma mem_updateWhere {players : List Player} {pid : Nat} {f : Player → Player} {q : Player}
    (hq : q ∈ updateWhere players pid f) :
    ∃ q0 ∈ players, q = if q0.id = pid then f q0 else q0 := by
  unfold updateWhere at hq
  obtain ⟨q0, hq0, hmap⟩ := List.mem_map.mp hq
  exact ⟨q0, hq0, hmap.symm⟩

/-- The summary gate only reads the `daily_summaries` table. -/
lemma isDailyResultsProcessed_congr {st1 st2 : Store}
    (h : st1.dailySummaries = st2.dailySummaries) (gameDate : String) :
    isDailyResultsProcessed st1 gameDate = isDailyResultsProcessed st2 gameDate := by
  unfold isDailyResultsProcessed
  rw [h]

/-- With pairwise-distinct primary keys, a row is determined by its id. -/
lemma pairwise_id_unique {players : List Player}
    (h : List.Pairwise (fun a b => a.id ≠ b.id) players)
    {q r : Player} (hq : q ∈ players) (hr : r ∈ players) (hid : q.id = r.id) :
    q = r := by
  induction players with
  | nil => cases hq
  | cons a l ih =>
    rcases List.mem_cons.mp hq with rfl | hq2
    · rcases List.mem_cons.mp hr with rfl | hr2
      · rfl
      · exact absurd hid ((List.pairwise_cons.mp h).1 r hr2)
    · rcases List.mem_cons.mp hr with rfl | hr2
      · exact absurd hid.symm ((List.pairwise_cons.mp h).1 q hq2)
      · exact ih (List.pairwise_cons.mp h).2 hq2 hr2

/-- Effect summary of `getOrCreatePlayer` on the store: the other
tables are untouched, the id counter never shrinks, and the `players`
table is either rewritten by a username-only update or extended by one
fresh row holding the default rating. -/
lemma getOrCreatePlayer_spec (st : Store) (d u : String) (e : ℤ) :
    (getOrCreatePlayer st d u e).1.games = st.games
    ∧ (getOrCreatePlayer st d u e).1.eloHistory = st.eloHistory
    ∧ (getOrCreatePlayer st d u e).1.dailySummaries = st.dailySummaries
    ∧ st.nextPlayerId ≤ (getOrCreatePlayer st d u e).1.nextPlayerId
    ∧ ((getOrCreatePlayer st d u e).1.players = st.players
        ∨ (∃ pid, (getOrCreatePlayer st d u e).1.players
            = updateWhere st.players pid fun p => { p with username := u })
        ∨ ((getOrCreatePlayer st d u e).1.players
              = st.players ++ [(getOrCreatePlayer st d u e).2]
            ∧ (getOrCreatePlayer st d u e).2.id = st.nextPlayerId
            ∧ (getOrCreatePlayer st d u e).2.elo = e
            ∧ (getOrCreatePlayer st d u e).2.discordId = d
            ∧ (getOrCreatePlayer st d u e).1.nextPlayerId = st.nextPlayerId + 1)) := by
  unfold getOrCreatePlayer
  cases hfind : getPlayerByDiscordId st d with
  | some p =>
    simp only
    split_ifs with hname
    · exact ⟨rfl, rfl, rfl, le_refl _, Or.inr (Or.inl ⟨p.id, rfl⟩)⟩
    · exact ⟨rfl, rfl, rfl, le_refl _, Or.inl rfl⟩
  | none =>
    unfold createPlayer
    exact ⟨rfl, rfl, rfl, Nat.le_succ _, Or.inr (Or.inr ⟨rfl, rfl, rfl, rfl, rfl⟩)⟩

/-- The player returned by `getOrCreatePlayer` is a row of the
resulting `players` table. -/
lemma getOrCreatePlayer_mem (st : Store) (d u : String) (e : ℤ) :
    (getOrCreatePlayer st d u e).2 ∈ (getOrCreatePlayer st d u e).1.players := by
  unfold getOrCreatePlayer
  cases hfind : getPlayerByDiscordId st d with
  | some p =>
    have hp : p ∈ st.players := List.mem_of_find?_eq_some hfind
    simp only
    split_ifs with hname
    · unfold updatePlayerUsername updateWhere
      simp only
      refine List.mem_map.mpr ⟨p, hp, ?_⟩
      rw [if_pos rfl]
    · exact hp
  | none =>
    unfold createPlayer
    simp

/-- The player returned by `getOrCreatePlayer` keeps the rating of the
row it was found in, or carries the default rating after creation; in
either case its rating agrees with every equal-id row of the resulting
table whenever ids are unique there. -/
lemma getOrCreatePlayer_lookup (st : Store) (d u : String) (e : ℤ) :
    (∃ p, getPlayerByDiscordId st d = some p
        ∧ (getOrCreatePlayer st d u e).2.elo = p.elo
        ∧ (getOrCreatePlayer st d u e).2.id = p.id)
    ∨ (getPlayerByDiscordId st d = none
        ∧ (getOrCreatePlayer st d u e).2.elo = e
        ∧ (getOrCreatePlayer st d u e).2.id = st.nextPlayerId) := by
  unfold getOrCreatePlayer
  cases hfind : getPlayerByDiscordId st d with
  | some p =>
    simp only
    split_ifs with hname
    · exact Or.inl ⟨p, rfl, rfl, rfl⟩
    · exact Or.inl ⟨p, rfl, rfl, rfl⟩
  | none =>
    unfold createPlayer
    exact Or.inr ⟨rfl, rfl, rfl⟩

/-! ### Claim C4: players with an existing record are excluded — but
the username refresh is still a write -/

/-- The store used to refute the no-write part of C4: one player whose
stored username differs from the sighted one and who already has a
game record for the target date. -/
def c4Player : Player :=
  { id := 1, discordId := "a", username := "old", elo := 1000
    totalGames := 1, totalWins := 1, totalCrowns := 0, totalGuesses := 3
    lastPlayed := some "2024-01-01", consecutiveInactiveDays := 0, isActive := true }

def c4Store : Store :=
  { players := [c4Player]
    games := [{ playerId := 1, guessCount := 3, gameDate := "2024-01-01"
                wordleNumber := none, eloChange := 0, eloBefore := 1000, eloAfter := 1000 }]
    eloHistory := []
    dailySummaries := []
    nextPlayerId := 2 }

/-- C4 counterexample: a result for the already-recorded player whose
username changed is excluded from the round (no calculation output),
yet `processDailyResults` still writes to that player's row — the
username refresh inside `getOrCreatePlayer` — so the run does not make
zero writes for that player. -/
theorem processDailyResults_skipped_write_counterexample :
    (processDailyResults c4Store [⟨"a", "new", 4, false⟩] "2024-01-01" ⟨32, 1000⟩ none).2 = []
    ∧ (processDailyResults c4Store [⟨"a", "new", 4, false⟩] "2024-01-01" ⟨32, 1000⟩ none).1.players
        ≠ c4Store.players := by
  constructor
  · rfl
  · decide

/-- Field-wise equality of two player rows up to the username. -/
def eqExceptUsername (p q : Player) : Prop :=
  q.id = p.id ∧ q.discordId = p.discordId ∧ q.elo = p.elo
  ∧ q.totalGames = p.totalGames ∧ q.totalWins = p.totalWins
  ∧ q.totalCrowns = p.totalCrowns ∧ q.totalGuesses = p.totalGuesses
  ∧ q.lastPlayed = p.lastPlayed
  ∧ q.consecutiveInactiveDays = p.consecutiveInactiveDays
  ∧ q.isActive = p.isActive

lemma eqExceptUsername_refl (p : Player) : eqExceptUsername p p :=
  ⟨rfl, rfl, rfl, rfl, rfl, rfl, rfl, rfl, rfl, rfl⟩

/-- The collection-phase invariant for C4, tied to the id `pid` of the
already-recorded player: the other tables are untouched, ids stay
bounded by the counter, rows carrying `pid` have at most their
username changed, and every collected participant had no game record
for the date. -/
structure C4Collect (st0 : Store) (gameDate : String) (p : Player)
    (s : CollectState) : Prop where
  games_eq : s.store.games = st0.games
  hist_eq : s.store.eloHistory = st0.eloHistory
  next_le : st0.nextPlayerId ≤ s.store.nextPlayerId
  id_bound : ∀ q ∈ s.store.players, q.id < s.store.nextPlayerId
  untouched : ∀ q ∈ s.store.players, q.id = p.id → eqExceptUsername p q
  parts_ok : ∀ q ∈ s.participants, hasGameRecord st0 q.playerId gameDate = false

lemma c4Collect_step (st0 : Store) (gameDate : String) (p : Player)
    (hp : p.id < st0.nextPlayerId) (cfg : EloConfig)
    (s : CollectState) (r : ParsedPlayerResult)
    (h : C4Collect st0 gameDate p s) :
    C4Collect st0 gameDate p (collectStep cfg gameDate s r) := by
  obtain ⟨hg, hh, hn, hb, hu, hpk⟩ := h
  obtain ⟨hg', hh', _, hn', hcases⟩ :=
    getOrCreatePlayer_spec s.store r.discordId r.username cfg.defaultRating
  set pr := getOrCreatePlayer s.store r.discordId r.username cfg.defaultRating with hpr
  have hgames1 : pr.1.games = st0.games := hg'.trans hg
  have hhist1 : pr.1.eloHistory = st0.eloHistory := hh'.trans hh
  have hnext1 : st0.nextPlayerId ≤ pr.1.nextPlayerId := le_trans hn hn'
  have hbound1 : ∀ q ∈ pr.1.players, q.id < pr.1.nextPlayerId := by
    rcases hcases with hsame | ⟨pid, hupd⟩ | ⟨happ, hid, _, _, hnext⟩
    · intro q hq
      rw [hsame] at hq
      exact lt_of_lt_of_le (hb q hq) hn'
    · intro q hq
      rw [hupd] at hq
      obtain ⟨q0, hq0, hform⟩ := mem_updateWhere hq
      have : q.id = q0.id := by
        rw [hform]
        split_ifs <;> rfl
      rw [this]
      exact lt_of_lt_of_le (hb q0 hq0) hn'
    · intro q hq
      rw [happ] at hq
      rcases List.mem_append.mp hq with hq2 | hq2
      · rw [hnext]
        exact lt_of_lt_of_le (hb q hq2) (Nat.le_succ _)
      · rw [List.mem_singleton.mp hq2, hid, hnext]
        exact Nat.lt_succ_self _
  have huntouched1 : ∀ q ∈ pr.1.players, q.id = p.id → eqExceptUsername p q := by
    rcases hcases with hsame | ⟨pid, hupd⟩ | ⟨happ, hid, _, _, _⟩
    · intro q hq
      rw [hsame] at hq
      exact hu q hq
    · intro q hq hqid
      rw [hupd] at hq
      obtain ⟨q0, hq0, hform⟩ := mem_updateWhere hq
      by_cases hc : q0.id = pid
      · rw [hform, if_pos hc] at hqid ⊢
        exact hu q0 hq0 hqid
      · rw [hform, if_neg hc] at hqid ⊢
        exact hu q0 hq0 hqid
    · intro q hq hqid
      rw [happ] at hq
      rcases List.mem_append.mp hq with hq2 | hq2
      · exact hu q hq2 hqid
      · rw [List.mem_singleton.mp hq2, hid] at hqid
        have : p.id < st0.nextPlayerId := hp
        omega
  unfold collectStep
  rw [← hpr]
  dsimp only
  split_ifs with hrec
  · exact ⟨hgames1, hhist1, hnext1, hbound1, huntouched1, hpk⟩
  · refine ⟨hgames1, hhist1, hnext1, hbound1, huntouched1, ?_⟩
    intro q hq
    rcases List.mem_append.mp hq with hq2 | hq2
    · exact hpk q hq2
    · rw [List.mem_singleton.mp hq2]
      have := hasGameRecord_congr hgames1 pr.2.id gameDate
      rw [← this]
      exact Bool.of_not_eq_true hrec

lemma c4Collect_fold (st0 : Store) (gameDate : String) (p : Player)
    (hp : p.id < st0.nextPlayerId) (cfg : EloConfig)
    (results : List ParsedPlayerResult) (s : CollectState)
    (h : C4Collect st0 gameDate p s) :
    C4Collect st0 gameDate p (results.foldl (collectStep cfg gameDate) s) := by
  induction results generalizing s with
  | nil => exact h
  | cons r rs ih => exact ih _ (c4Collect_step st0 gameDate p hp cfg s r h)

/-- The apply-phase invariant for C4: no game or history row for the
excluded id is ever appended, rows carrying the id keep everything but
their username, and no output entry carries the id. -/
structure C4Apply (st0 : Store) (p : Player) (a : ApplyState) : Prop where
  games_filter : a.store.games.filter (fun g => g.playerId == p.id)
      = st0.games.filter fun g => g.playerId == p.id
  hist_filter : a.store.eloHistory.filter (fun h => h.playerId == p.id)
      = st0.eloHistory.filter fun h => h.playerId == p.id
  untouched : ∀ q ∈ a.store.players, q.id = p.id → eqExceptUsername p q
  out_ids : ∀ r ∈ a.output, r.playerId ≠ p.id

lemma c4Apply_step (st0 : Store) (p : Player) (eloChanges : Nat → ℤ)
    (playerMap : List (Nat × PlayerRoundData)) (gameDate : String)
    (wn : Option Nat) (a : ApplyState) (q : PipeParticipant)
    (hq : q.playerId ≠ p.id) (h : C4Apply st0 p a) :
    C4Apply st0 p (applyStep eloChanges playerMap gameDate wn a q) := by
  obtain ⟨hg, hh, hu, ho⟩ := h
  have hbeq : (q.playerId == p.id) = false := by
    simp [hq]
  unfold applyStep recordEloHistory recordGame updatePlayerAfterGame
  dsimp only
  refine ⟨?_, ?_, ?_, ?_⟩
  · rw [List.filter_append, hg]
    simp [hbeq]
  · rw [List.filter_append, hh]
    simp [hbeq]
  · intro q' hq' hid
    obtain ⟨q0, hq0, hform⟩ := mem_updateWhere hq'
    by_cases hc : q0.id = q.playerId
    · rw [hform, if_pos hc] at hid ⊢
      exact absurd (hc ▸ hid : q.playerId = p.id) hq
    · rw [hform, if_neg hc] at hid ⊢
      exact hu q0 hq0 hid
  · intro r hr
    rcases List.mem_append.mp hr with hr2 | hr2
    · exact ho r hr2
    · rw [List.mem_singleton.mp hr2]
      exact hq

lemma c4Apply_fold (st0 : Store) (p : Player) (eloChanges : Nat → ℤ)
    (playerMap : List (Nat × PlayerRoundData)) (gameDate : String)
    (wn : Option Nat) (parts : List PipeParticipant)
    (hparts : ∀ q ∈ parts, q.playerId ≠ p.id) (a : ApplyState)
    (h : C4Apply st0 p a) :
    C4Apply st0 p (parts.foldl (applyStep eloChanges playerMap gameDate wn) a) := by
  induction parts generalizing a with
  | nil => exact h
  | cons q rest ih =>
    exact ih (fun x hx => hparts x (List.mem_cons_of_mem q hx)) _
      (c4Apply_step st0 p eloChanges playerMap gameDate wn a q
        (hparts q (List.mem_cons_self q rest)) h)

/-- C4 (amended): an input result whose player already has a game
record for the target date is excluded from the comparison set — it
appears in no output entry, gains no game or rating-history row, and
its player row keeps its rating, counters and activity state; the only
field that may still be written for it is the username refresh
performed by the player lookup. -/
theorem processDailyResults_excluded_player
    (st : Store) (results : List ParsedPlayerResult) (gameDate : String)
    (cfg : EloConfig) (wn : Option Nat) (d : String) (p : Player)
    (hfind : getPlayerByDiscordId st d = some p)
    (hrec : hasGameRecord st p.id gameDate = true)
    (hnodup : List.Pairwise (fun a b => a.id ≠ b.id) st.players)
    (hbound : ∀ q ∈ st.players, q.id < st.nextPlayerId) :
    (∀ r ∈ (processDailyResults st results gameDate cfg wn).2, r.playerId ≠ p.id)
    ∧ (processDailyResults st results gameDate cfg wn).1.games.filter
        (fun g => g.playerId == p.id) = st.games.filter (fun g => g.playerId == p.id)
    ∧ (processDailyResults st results gameDate cfg wn).1.eloHistory.filter
        (fun h => h.playerId == p.id)
        = st.eloHistory.filter (fun h => h.playerId == p.id)
    ∧ ∀ q ∈ (processDailyResults st results gameDate cfg wn).1.players,
        q.id = p.id → eqExceptUsername p q := by
  have hpmem : p ∈ st.players := List.mem_of_find?_eq_some hfind
  have hp : p.id < st.nextPlayerId := hbound p hpmem
  have hbase : C4Collect st gameDate p ⟨st, [], []⟩ := by
    refine ⟨rfl, rfl, le_refl _, hbound, ?_, ?_⟩
    · intro q hq hid
      rw [pairwise_id_unique hnodup hq hpmem hid]
      exact eqExceptUsername_refl p
    · intro q hq
      exact absurd hq (List.not_mem_nil q)
  have hc : C4Collect st gameDate p (collectParticipants st results gameDate cfg) :=
    c4Collect_fold st gameDate p hp cfg results ⟨st, [], []⟩ hbase
  have hne : ∀ q ∈ (collectParticipants st results gameDate cfg).participants,
      q.playerId ≠ p.id := by
    intro q hq he
    have h1 := hc.parts_ok q hq
    rw [he] at h1
    rw [hrec] at h1
    cases h1
  unfold processDailyResults
  dsimp only
  split_ifs with hlen
  · refine ⟨?_, ?_, ?_, ?_⟩
    · intro r hr
      exact absurd hr (List.not_mem_nil r)
    · dsimp only
      rw [hc.games_eq]
    · dsimp only
      rw [hc.hist_eq]
    · exact hc.untouched
  · have hbase2 : C4Apply st p ⟨(collectParticipants st results gameDate cfg).store, []⟩ := by
      refine ⟨?_, ?_, hc.untouched, ?_⟩
      · dsimp only
        rw [hc.games_eq]
      · dsimp only
        rw [hc.hist_eq]
      · intro r hr
        exact absurd hr (List.not_mem_nil r)
    have hfin := c4Apply_fold st p
      (fun pid => calculatePairwiseElo
        ((collectParticipants st results gameDate cfg).participants.map toEloParticipant)
        cfg.kFactor pid)
      (collectParticipants st results gameDate cfg).playerMap gameDate wn
      (collectParticipants st results gameDate cfg).participants hne
      ⟨(collectParticipants st results gameDate cfg).store, []⟩ hbase2
    exact ⟨hfin.out_ids, hfin.games_filter, hfin.hist_filter, hfin.untouched⟩

/-- Witness for the amended C4 at the concrete counterexample input. -/
theorem processDailyResults_excluded_player_witness :
    (∀ r ∈ (processDailyResults c4Store [⟨"a", "new", 4, false⟩] "2024-01-01"
        ⟨32, 1000⟩ none).2, r.playerId ≠ c4Player.id)
    ∧ (processDailyResults c4Store [⟨"a", "new", 4, false⟩] "2024-01-01"
        ⟨32, 1000⟩ none).1.games.filter (fun g => g.playerId == c4Player.id)
        = c4Store.games.filter (fun g => g.playerId == c4Player.id)
    ∧ (processDailyResults c4Store [⟨"a", "new", 4, false⟩] "2024-01-01"
        ⟨32, 1000⟩ none).1.eloHistory.filter (fun h => h.playerId == c4Player.id)
        = c4Store.eloHistory.filter (fun h => h.playerId == c4Player.id)
    ∧ ∀ q ∈ (processDailyResults c4Store [⟨"a", "new", 4, false⟩] "2024-01-01"
        ⟨32, 1000⟩ none).1.players, q.id = c4Player.id → eqExceptUsername c4Player q :=
  processDailyResults_excluded_player c4Store [⟨"a", "new", 4, false⟩] "2024-01-01"
    ⟨32, 1000⟩ none "a" c4Player (by decide) (by decide)
    (by
      rw [show c4Store.players = [c4Player] from rfl]
      exact List.pairwise_singleton _ _)
    (by
      intro q hq
      rw [show c4Store.players = [c4Player] from rfl] at hq
      rw [List.mem_singleton.mp hq]
      decide)

/-! ### Claim C10: deltas are applied against the pre-round snapshot -/

/-- The rating a Discord id enters the round with: the stored rating
if the player exists, the configured default otherwise. -/
def startElo (st : Store) (cfg : EloConfig) (discordId : String) : ℤ :=
  match getPlayerByDiscordId st discordId with
  | some p => p.elo
  | none => cfg.defaultRating

lemma find?_key_map_ne (m : List (Nat × PlayerRoundData)) (k k' : Nat)
    (v : PlayerRoundData) (hne : k' ≠ k) :
    ((m.map fun e => if e.1 = k then (k, v) else e).find? fun e => e.1 == k')
      = m.find? fun e => e.1 == k' := by
  induction m with
  | nil => rfl
  | cons e m ih =>
    by_cases hek : e.1 = k
    · rw [List.map_cons, if_pos hek,
        List.find?_cons_of_neg _ (by simp [Ne.symm hne]),
        List.find?_cons_of_neg _ (by simp [hek, Ne.symm hne])]
      exact ih
    · rw [List.map_cons, if_neg hek]
      by_cases hek' : e.1 = k'
      · rw [List.find?_cons_of_pos _ (by simp [hek']),
          List.find?_cons_of_pos _ (by simp [hek'])]
      · rw [List.find?_cons_of_neg _ (by simp [hek']),
          List.find?_cons_of_neg _ (by simp [hek'])]
        exact ih

lemma find?_key_map_self (m : List (Nat × PlayerRoundData)) (k : Nat)
    (v : PlayerRoundData) (hany : (m.any fun e => e.1 == k) = true) :
    ((m.map fun e => if e.1 = k then (k, v) else e).find? fun e => e.1 == k)
      = some (k, v) := by
  induction m with
  | nil => cases hany
  | cons e m ih =>
    by_cases hek : e.1 = k
    · rw [List.map_cons, if_pos hek, List.find?_cons_of_pos _ (by simp)]
    · rw [List.map_cons, if_neg hek, List.find?_cons_of_neg _ (by simp [hek])]
      apply ih
      have hfalse : (e.1 == k) = false := by simp [hek]
      simpa [List.any_cons, hfalse] using hany

/-- Reading a JavaScript `Map` after `set`: the written key returns the
new value, every other key is unaffected. -/
lemma getAssoc_setAssoc (m : List (Nat × PlayerRoundData)) (k : Nat)
    (v : PlayerRoundData) (k' : Nat) :
    getAssoc (setAssoc m k v) k' = if k' = k then some v else getAssoc m k' := by
  unfold getAssoc setAssoc
  by_cases hany : (m.any fun e => e.1 == k) = true
  · rw [if_pos hany]
    by_cases hk : k' = k
    · subst hk
      rw [if_pos rfl, find?_key_map_self m k' v hany]
      rfl
    · rw [if_neg hk, find?_key_map_ne m k k' v hk]
  · rw [if_neg hany]
    by_cases hk : k' = k
    · subst hk
      rw [if_pos rfl, List.find?_append]
      have hnone : (m.find? fun e => e.1 == k') = none := by
        rw [List.find?_eq_none]
        intro x hx hpx
        exact hany (List.any_eq_true.mpr ⟨x, hx, hpx⟩)
      rw [hnone]
      simp
    · rw [if_neg hk, List.find?_append]
      have h2 : ([(k, v)].find? fun e => e.1 == k') = none := by
        rw [List.find?_eq_none]
        intro x hx
        rw [List.mem_singleton.mp hx]
        simp [Ne.symm hk]
      rw [h2]
      simp

/-- Every entry of a `Map` after `set` is an old entry or the written
one. -/
lemma mem_setAssoc {m : List (Nat × PlayerRoundData)} {k : Nat}
    {v : PlayerRoundData} {e : Nat × PlayerRoundData} (he : e ∈ setAssoc m k v) :
    e ∈ m ∨ e = (k, v) := by
  unfold setAssoc at he
  split_ifs at he with hany
  · obtain ⟨e0, he0, hmap⟩ := List.mem_map.mp he
    by_cases hc : e0.1 = k
    · rw [if_pos hc] at hmap
      exact Or.inr hmap.symm
    · rw [if_neg hc] at hmap
      exact Or.inl (hmap ▸ he0)
  · rcases List.mem_append.mp he with h1 | h1
    · exact Or.inl h1
    · exact Or.inr (List.mem_singleton.mp h1)

/-- Looking a Discord id up after a username-only update: the found
row is the (possibly updated) originally found row. -/
lemma find?_discord_updateWhere (l : List Player) (pid : Nat) (u d : String) :
    ((updateWhere l pid fun p => { p with username := u }).find?
        fun p => p.discordId == d)
      = (l.find? fun p => p.discordId == d).map
          fun p => if p.id = pid then { p with username := u } else p := by
  unfold updateWhere
  rw [List.find?_map]
  have hcomp : ((fun p : Player => p.discordId == d) ∘
      fun p => if p.id = pid then { p with username := u } else p)
      = fun p : Player => p.discordId == d := by
    funext p
    by_cases h : p.id = pid <;> simp [h]
  rw [hcomp]

/-- The collection-phase invariant for C10: the `games` table is
untouched, primary keys stay unique and bounded, every lookup returns
the rating the id entered the round with, and the collected
participants and round-data map all record exactly that entry
rating. -/
structure SnapInv (st0 : Store) (cfg : EloConfig) (s : CollectState) : Prop where
  games_eq : s.store.games = st0.games
  next_le : st0.nextPlayerId ≤ s.store.nextPlayerId
  id_bound : ∀ q ∈ s.store.players, q.id < s.store.nextPlayerId
  id_nodup : List.Pairwise (fun a b => a.id ≠ b.id) s.store.players
  lookup_elo : ∀ d q, getPlayerByDiscordId s.store d = some q → q.elo = startElo st0 cfg d
  lookup_none : ∀ d, getPlayerByDiscordId s.store d = none →
      getPlayerByDiscordId st0 d = none
  parts_row : ∀ q ∈ s.participants, ∀ p0 ∈ s.store.players,
      p0.id = q.playerId → p0.elo = q.currentElo
  parts_bound : ∀ q ∈ s.participants, q.playerId < s.store.nextPlayerId
  map_prev : ∀ e ∈ s.playerMap, e.2.previousElo = startElo st0 cfg e.2.discordId
  link : ∀ q ∈ s.participants, ∀ pd, getAssoc s.playerMap q.playerId = some pd →
      pd.previousElo = q.currentElo
  map_some : ∀ q ∈ s.participants, ∃ pd, getAssoc s.playerMap q.playerId = some pd

lemma snapInv_step (st0 : Store) (cfg : EloConfig) (gameDate : String)
    (s : CollectState) (r : ParsedPlayerResult) (h : SnapInv st0 cfg s) :
    SnapInv st0 cfg (collectStep cfg gameDate s r) := by
  obtain ⟨hg, hn, hb, hnd, hle, hln, hrow, hpb, hmp, hlink, hms⟩ := h
  obtain ⟨hg', hh', hs', hn', hcases⟩ :=
    getOrCreatePlayer_spec s.store r.discordId r.username cfg.defaultRating
  set pr := getOrCreatePlayer s.store r.discordId r.username cfg.defaultRating with hpr
  have games1 : pr.1.games = st0.games := hg'.trans hg
  have next1 : st0.nextPlayerId ≤ pr.1.nextPlayerId := le_trans hn hn'
  have bound1 : ∀ q ∈ pr.1.players, q.id < pr.1.nextPlayerId := by
    rcases hcases with hsame | ⟨pid, hupd⟩ | ⟨happ, hid, _, _, hnext⟩
    · intro q hq
      rw [hsame] at hq
      exact lt_of_lt_of_le (hb q hq) hn'
    · intro q hq
      rw [hupd] at hq
      obtain ⟨q0, hq0, hform⟩ := mem_updateWhere hq
      have : q.id = q0.id := by
        rw [hform]
        split_ifs <;> rfl
      rw [this]
      exact lt_of_lt_of_le (hb q0 hq0) hn'
    · intro q hq
      rw [happ] at hq
      rcases List.mem_append.mp hq with hq2 | hq2
      · rw [hnext]
        exact lt_of_lt_of_le (hb q hq2) (Nat.le_succ _)
      · rw [List.mem_singleton.mp hq2, hid, hnext]
        exact Nat.lt_succ_self _
  have nodup1 : List.Pairwise (fun a b => a.id ≠ b.id) pr.1.players := by
    rcases hcases with hsame | ⟨pid, hupd⟩ | ⟨happ, hid, _, _, _⟩
    · rw [hsame]
      exact hnd
    · rw [hupd]
      unfold updateWhere
      rw [List.pairwise_map]
      have hids : ∀ p : Player,
          (if p.id = pid then { p with username := r.username } else p).id = p.id := by
        intro p
        split_ifs <;> rfl
      refine List.Pairwise.imp ?_ hnd
      intro a b hab
      rw [hids a, hids b]
      exact hab
    · rw [happ, List.pairwise_append]
      refine ⟨hnd, List.pairwise_singleton _ _, ?_⟩
      intro a ha b hb2
      rw [List.mem_singleton.mp hb2, hid]
      exact Nat.ne_of_lt (hb a ha)
  have lookupElo1 : ∀ d q, getPlayerByDiscordId pr.1 d = some q →
      q.elo = startElo st0 cfg d := by
    rcases hcases with hsame | ⟨pid, hupd⟩ | ⟨happ, hid, _, hdid, _⟩
    · intro d q hq
      apply hle d q
      unfold getPlayerByDiscordId at hq ⊢
      rw [← hsame]
      exact hq
    · intro d q hq
      unfold getPlayerByDiscordId at hq
      rw [hupd, find?_discord_updateWhere] at hq
      cases hold : s.store.players.find? fun p => p.discordId == d with
      | none =>
        rw [hold] at hq
        cases hq
      | some q0 =>
        rw [hold] at hq
        have hq0 : q.elo = q0.elo := by
          have heq := Option.some.inj hq
          rw [← heq]
          by_cases hc : q0.id = pid <;> simp [hc]
        rw [hq0]
        exact hle d q0 hold
    · intro d q hq
      unfold getPlayerByDiscordId at hq
      rw [happ, List.find?_append] at hq
      cases hold : s.store.players.find? fun p => p.discordId == d with
      | some q0 =>
        rw [hold, Option.or_some] at hq
        have heq : q = q0 := (Option.some.inj hq).symm
        rw [heq]
        exact hle d q0 hold
      | none =>
        rw [hold] at hq
        simp only [Option.none_or] at hq
        by_cases hcond : (pr.2.discordId == d) = true
        · have hsingle : List.find? (fun p : Player => p.discordId == d) [pr.2]
              = some pr.2 := List.find?_cons_of_pos _ hcond
          rw [hsingle] at hq
          have hqpr : q = pr.2 := (Option.some.inj hq).symm
          have hd : d = r.discordId := by
            rw [← beq_iff_eq.mp hcond, hdid]
          rcases getOrCreatePlayer_lookup s.store r.discordId r.username
              cfg.defaultRating with ⟨p0, hf, he, _⟩ | ⟨hf, he, _⟩
          · rw [← hpr] at he
            rw [hqpr, he, hd]
            exact hle r.discordId p0 hf
          · rw [← hpr] at he
            rw [hqpr, he, hd]
            unfold startElo
            rw [hln r.discordId hf]
        · have hsingle : List.find? (fun p : Player => p.discordId == d) [pr.2]
              = none := by
            rw [List.find?_eq_none]
            intro x hx
            rw [List.mem_singleton.mp hx]
            exact hcond
          rw [hsingle] at hq
          cases hq
  have lookupNone1 : ∀ d, getPlayerByDiscordId pr.1 d = none →
      getPlayerByDiscordId st0 d = none := by
    rcases hcases with hsame | ⟨pid, hupd⟩ | ⟨happ, _, _, _, _⟩
    · intro d hq
      apply hln d
      unfold getPlayerByDiscordId at hq ⊢
      rw [← hsame]
      exact hq
    · intro d hq
      unfold getPlayerByDiscordId at hq
      rw [hupd, find?_discord_updateWhere] at hq
      apply hln d
      unfold getPlayerByDiscordId
      cases hold : s.store.players.find? fun p => p.discordId == d with
      | none => rfl
      | some q0 =>
        rw [hold] at hq
        cases hq
    · intro d hq
      unfold getPlayerByDiscordId at hq
      rw [happ, List.find?_append] at hq
      apply hln d
      unfold getPlayerByDiscordId
      cases hold : s.store.players.find? fun p => p.discordId == d with
      | none => rfl
      | some q0 =>
        rw [hold] at hq
        cases hq
  have rowElo1 : ∀ q ∈ s.participants, ∀ p0 ∈ pr.1.players,
      p0.id = q.playerId → p0.elo = q.currentElo := by
    rcases hcases with hsame | ⟨pid, hupd⟩ | ⟨happ, hid, _, _, _⟩
    · intro q hq p0 hp0
      rw [hsame] at hp0
      exact hrow q hq p0 hp0
    · intro q hq p0 hp0 hpid
      rw [hupd] at hp0
      obtain ⟨q0, hq0, hform⟩ := mem_updateWhere hp0
      have hido : p0.id = q0.id := by
        rw [hform]
        split_ifs <;> rfl
      have helo : p0.elo = q0.elo := by
        rw [hform]
        split_ifs <;> rfl
      rw [helo]
      exact hrow q hq q0 hq0 (hido ▸ hpid)
    · intro q hq p0 hp0 hpid
      rw [happ] at hp0
      rcases List.mem_append.mp hp0 with hp2 | hp2
      · exact hrow q hq p0 hp2 hpid
      · rw [List.mem_singleton.mp hp2, hid] at hpid
        exact absurd hpid.symm (Nat.ne_of_lt (hpb q hq))
  have partsBound1 : ∀ q ∈ s.participants, q.playerId < pr.1.nextPlayerId :=
    fun q hq => lt_of_lt_of_le (hpb q hq) hn'
  unfold collectStep
  rw [← hpr]
  dsimp only
  split_ifs with hrec
  · exact ⟨games1, next1, bound1, nodup1, lookupElo1, lookupNone1, rowElo1,
      partsBound1, hmp, hlink, hms⟩
  · have hmem2 : pr.2 ∈ pr.1.players := by
      rw [hpr]
      exact getOrCreatePlayer_mem s.store r.discordId r.username cfg.defaultRating
    have hpr2elo : pr.2.elo = startElo st0 cfg r.discordId := by
      rcases getOrCreatePlayer_lookup s.store r.discordId r.username
          cfg.defaultRating with ⟨p0, hf, he, _⟩ | ⟨hf, he, _⟩
      · rw [← hpr] at he
        rw [he]
        exact hle r.discordId p0 hf
      · rw [← hpr] at he
        rw [he]
        unfold startElo
        rw [hln r.discordId hf]
    have hbound2 : pr.2.id < pr.1.nextPlayerId := bound1 pr.2 hmem2
    refine ⟨games1, next1, bound1, nodup1, lookupElo1, lookupNone1, ?_, ?_, ?_, ?_, ?_⟩
    · intro q hq p0 hp0 hpid
      rcases List.mem_append.mp hq with hq2 | hq2
      · exact rowElo1 q hq2 p0 hp0 hpid
      · rw [List.mem_singleton.mp hq2] at hpid ⊢
        have : p0 = pr.2 := pairwise_id_unique nodup1 hp0 hmem2 hpid
        rw [this]
    · intro q hq
      rcases List.mem_append.mp hq with hq2 | hq2
      · exact partsBound1 q hq2
      · rw [List.mem_singleton.mp hq2]
        exact hbound2
    · intro e he
      rcases mem_setAssoc he with he2 | he2
      · exact hmp e he2
      · rw [he2]
        exact hpr2elo
    · intro q hq pd hpd
      rw [getAssoc_setAssoc] at hpd
      rcases List.mem_append.mp hq with hq2 | hq2
      · by_cases hcond : q.playerId = pr.2.id
        · rw [if_pos hcond] at hpd
          have hpd2 : pd.previousElo = pr.2.elo := by
            rw [← Option.some.inj hpd]
          rw [hpd2]
          exact rowElo1 q hq2 pr.2 hmem2 hcond.symm
        · rw [if_neg hcond] at hpd
          exact hlink q hq2 pd hpd
      · rw [List.mem_singleton.mp hq2] at hpd ⊢
        rw [if_pos rfl] at hpd
        rw [← Option.some.inj hpd]
    · intro q hq
      rcases List.mem_append.mp hq with hq2 | hq2
      · by_cases hcond : q.playerId = pr.2.id
        · exact ⟨_, by rw [getAssoc_setAssoc, if_pos hcond]⟩
        · obtain ⟨pd, hpd⟩ := hms q hq2
          exact ⟨pd, by rw [getAssoc_setAssoc, if_neg hcond]; exact hpd⟩
      · rw [List.mem_singleton.mp hq2]
        exact ⟨_, by rw [getAssoc_setAssoc, if_pos rfl]⟩

lemma snapInv_fold (st0 : Store) (cfg : EloConfig) (gameDate : String)
    (results : List ParsedPlayerResult) (s : CollectState)
    (h : SnapInv st0 cfg s) :
    SnapInv st0 cfg (results.foldl (collectStep cfg gameDate) s) := by
  induction results generalizing s with
  | nil => exact h
  | cons r rs ih => exact ih _ (snapInv_step st0 cfg gameDate s r h)

/-- A successful `Map.get` returns the payload of some stored entry. -/
lemma getAssoc_mem {m : List (Nat × PlayerRoundData)} {k : Nat} {pd : PlayerRoundData}
    (h : getAssoc m k = some pd) : ∃ e ∈ m, e.2 = pd := by
  unfold getAssoc at h
  cases hfind : m.find? fun e => e.1 == k with
  | none =>
    rw [hfind] at h
    cases h
  | some e =>
    rw [hfind] at h
    exact ⟨e, List.mem_of_find?_eq_some hfind, Option.some.inj h⟩

/-- The apply loop preserves the C10 facts: every appended game row
stores `eloChange = eloAfter - eloBefore`, and every emitted result
satisfies `newElo = previousElo + eloChange` with `previousElo` the
entry rating of the player. -/
lemma snapshot_apply_fold (st0 : Store) (cfg : EloConfig)
    (eloChanges : Nat → ℤ) (playerMap : List (Nat × PlayerRoundData))
    (gameDate : String) (wn : Option Nat)
    (hprev : ∀ e ∈ playerMap, e.2.previousElo = startElo st0 cfg e.2.discordId) :
    ∀ parts : List PipeParticipant,
      (∀ q ∈ parts, ∀ pd, getAssoc playerMap q.playerId = some pd →
          pd.previousElo = q.currentElo) →
      (∀ q ∈ parts, ∃ pd, getAssoc playerMap q.playerId = some pd) →
      ∀ a : ApplyState,
        (∀ g ∈ a.store.games, g ∈ st0.games ∨ g.eloChange = g.eloAfter - g.eloBefore) →
        (∀ r ∈ a.output, r.newElo = r.previousElo + r.eloChange
            ∧ r.previousElo = startElo st0 cfg r.discordId) →
        (∀ g ∈ (parts.foldl (applyStep eloChanges playerMap gameDate wn) a).store.games,
            g ∈ st0.games ∨ g.eloChange = g.eloAfter - g.eloBefore)
        ∧ ∀ r ∈ (parts.foldl (applyStep eloChanges playerMap gameDate wn) a).output,
            r.newElo = r.previousElo + r.eloChange
            ∧ r.previousElo = startElo st0 cfg r.discordId := by
  intro parts
  induction parts with
  | nil =>
    intro _ _ a hg ho
    exact ⟨hg, ho⟩
  | cons q rest ih =>
    intro hlink hsome a hg ho
    rw [List.foldl_cons]
    obtain ⟨pd0, hpd0⟩ := hsome q (List.mem_cons_self q rest)
    have hgetD : (getAssoc playerMap q.playerId).getD ⟨"", 0, 0, false⟩ = pd0 := by
      rw [hpd0]
      rfl
    apply ih
    · intro x hx pd hpd
      exact hlink x (List.mem_cons_of_mem q hx) pd hpd
    · intro x hx
      exact hsome x (List.mem_cons_of_mem q hx)
    · intro g hgmem
      unfold applyStep recordEloHistory recordGame updatePlayerAfterGame at hgmem
      dsimp only at hgmem
      rw [hgetD] at hgmem
      rcases List.mem_append.mp hgmem with hg2 | hg2
      · exact hg g hg2
      · rw [List.mem_singleton.mp hg2]
        exact Or.inr rfl
    · intro r hrmem
      unfold applyStep recordEloHistory recordGame updatePlayerAfterGame at hrmem
      dsimp only at hrmem
      rw [hgetD] at hrmem
      rcases List.mem_append.mp hrmem with hr2 | hr2
      · exact ho r hr2
      · rw [List.mem_singleton.mp hr2]
        refine ⟨rfl, ?_⟩
        have h1 : pd0.previousElo = q.currentElo :=
          hlink q (List.mem_cons_self q rest) pd0 hpd0
        obtain ⟨e, hemem, hesnd⟩ := getAssoc_mem hpd0
        have h2 := hprev e hemem
        rw [hesnd] at h2
        dsimp only
        rw [← h1, h2]

/-- C10: every game row written by `processDailyResults` stores
`eloChange = eloAfter - eloBefore`, and every returned calculation
result satisfies `newElo = previousElo + eloChange` with `previousElo`
the rating the player entered the round with — deltas are applied
against the pre-round snapshot, not sequentially updated ratings. -/
theorem processDailyResults_snapshot (st : Store) (results : List ParsedPlayerResult)
    (gameDate : String) (cfg : EloConfig) (wn : Option Nat)
    (hnodup : List.Pairwise (fun a b => a.id ≠ b.id) st.players)
    (hbound : ∀ q ∈ st.players, q.id < st.nextPlayerId) :
    (∀ g ∈ (processDailyResults st results gameDate cfg wn).1.games,
        g ∈ st.games ∨ g.eloChange = g.eloAfter - g.eloBefore)
    ∧ ∀ r ∈ (processDailyResults st results gameDate cfg wn).2,
        r.newElo = r.previousElo + r.eloChange
        ∧ r.previousElo = startElo st cfg r.discordId := by
  have hbase : SnapInv st cfg ⟨st, [], []⟩ := by
    refine ⟨rfl, le_refl _, hbound, hnodup, ?_, ?_, ?_, ?_, ?_, ?_, ?_⟩
    · intro d q hq
      unfold startElo
      rw [hq]
    · intro d hq
      exact hq
    · intro q hq
      exact absurd hq (List.not_mem_nil q)
    · intro q hq
      exact absurd hq (List.not_mem_nil q)
    · intro e he
      exact absurd he (List.not_mem_nil e)
    · intro q hq
      exact absurd hq (List.not_mem_nil q)
    · intro q hq
      exact absurd hq (List.not_mem_nil q)
  have hc : SnapInv st cfg (collectParticipants st results gameDate cfg) :=
    snapInv_fold st cfg gameDate results ⟨st, [], []⟩ hbase
  unfold processDailyResults
  dsimp only
  split_ifs with hlen
  · constructor
    · intro g hg
      dsimp only at hg
      rw [hc.games_eq] at hg
      exact Or.inl hg
    · intro r hr
      exact absurd hr (List.not_mem_nil r)
  · have hfin := snapshot_apply_fold st cfg
      (fun pid => calculatePairwiseElo
        ((collectParticipants st results gameDate cfg).participants.map toEloParticipant)
        cfg.kFactor pid)
      (collectParticipants st results gameDate cfg).playerMap gameDate wn
      hc.map_prev
      (collectParticipants st results gameDate cfg).participants
      hc.link hc.map_some
      ⟨(collectParticipants st results gameDate cfg).store, []⟩
      (by
        intro g hg
        dsimp only at hg
        rw [hc.games_eq] at hg
        exact Or.inl hg)
      (by
        intro r hr
        exact absurd hr (List.not_mem_nil r))
    exact hfin

/-- Witness for C10 at a concrete run: one fresh result for an
existing player on a not-yet-recorded date. -/
theorem processDailyResults_snapshot_witness :
    (∀ g ∈ (processDailyResults c4Store [⟨"a", "new", 4, false⟩] "2024-01-02"
        ⟨32, 1000⟩ none).1.games,
        g ∈ c4Store.games ∨ g.eloChange = g.eloAfter - g.eloBefore)
    ∧ ∀ r ∈ (processDailyResults c4Store [⟨"a", "new", 4, false⟩] "2024-01-02"
        ⟨32, 1000⟩ none).2,
        r.newElo = r.previousElo + r.eloChange
        ∧ r.previousElo = startElo c4Store ⟨32, 1000⟩ r.discordId :=
  processDailyResults_snapshot c4Store [⟨"a", "new", 4, false⟩] "2024-01-02"
    ⟨32, 1000⟩ none
    (by
      rw [show c4Store.players = [c4Player] from rfl]
      exact List.pairwise_singleton _ _)
    (by
      intro q hq
      rw [show c4Store.players = [c4Player] from rfl] at hq
      rw [List.mem_singleton.mp hq]
      decide)

/-! ## The result-row tokenizer (`parseResultRow`)

The players section of a result row is scanned twice, exactly as the
two regex loops do: first every Discord mention
(pattern `<@!?(\d+)>`), recording its text span, then every bare
username (pattern `@(\w+)`), discarding matches lying inside a
recorded mention span.  Each scanner models a JavaScript global-regex
`exec` loop: it looks for the leftmost match from the current
position and resumes after the end of each match. -/

/-- JavaScript `\w`: ASCII letters, digits and the underscore. -/
def isWordChar (c : Char) : Bool :=
  c.isAlphanum || c == '_'

/-- The digits-then-closing-bracket part of a mention match, applied
after `<@` and the optional `!`: one or more digits, immediately
followed by `>`.  Returns the digits and the matched length including
the bracket. -/
def mentionTail (cs : List Char) : Option (List Char × Nat) :=
  if (cs.takeWhile Char.isDigit).isEmpty then none
  else
    match cs.dropWhile Char.isDigit with
    | '>' :: _ => some (cs.takeWhile Char.isDigit, (cs.takeWhile Char.isDigit).length + 1)
    | _ => none

/-- Attempt to match `<@!?(\d+)>` at the head of the text: the
captured digits and the total match length. -/
def matchMentionAt (cs : List Char) : Option (List Char × Nat) :=
  match cs with
  | [] => none
  | [_] => none
  | c1 :: c2 :: rest =>
      if c1 = '<' ∧ c2 = '@' then
        if rest.head? = some '!' then
          (mentionTail rest.tail).map fun dl => (dl.1, 3 + dl.2)
        else
          (mentionTail rest).map fun dl => (dl.1, 2 + dl.2)
      else none

/-- Attempt to match `@(\w+)` at the head of the text: the captured
word and the total match length. -/
def matchUsernameAt (cs : List Char) : Option (List Char × Nat) :=
  match cs with
  | [] => none
  | c :: rest =>
      if c = '@' then
        if (rest.takeWhile isWordChar).isEmpty then none
        else some (rest.takeWhile isWordChar, 1 + (rest.takeWhile isWordChar).length)
      else none

/-- A mention token with its text span (`start` inclusive, `stop`
exclusive) and captured id digits. -/
structure MentionTok where
  start : Nat
  stop : Nat
  id : List Char
deriving DecidableEq

/-- A bare-username token with its text span and captured word. -/
structure NameTok where
  start : Nat
  stop : Nat
  name : List Char
deriving DecidableEq

/-- The mention-regex `exec` loop.  After a match of length `len` the
scan resumes at the match end; `rest.drop (len - 1)` is the tail of
`c :: rest` after `len` characters (every match has positive
length). -/
def scanMentions (pos : Nat) (cs : List Char) : List MentionTok :=
  match cs with
  | [] => []
  | c :: rest =>
      match matchMentionAt (c :: rest) with
      | some dl => ⟨pos, pos + dl.2, dl.1⟩ :: scanMentions (pos + dl.2) (rest.drop (dl.2 - 1))
      | none => scanMentions (pos + 1) rest
termination_by cs.length
decreasing_by
  · simp only [List.length_cons, List.length_drop]
    omega
  · simp only [List.length_cons]
    omega

/-- The username-regex `exec` loop. -/
def scanUsernames (pos : Nat) (cs : List Char) : List NameTok :=
  match cs with
  | [] => []
  | c :: rest =>
      match matchUsernameAt (c :: rest) with
      | some dl => ⟨pos, pos + dl.2, dl.1⟩ :: scanUsernames (pos + dl.2) (rest.drop (dl.2 - 1))
      | none => scanUsernames (pos + 1) rest
termination_by cs.length
decreasing_by
  · simp only [List.length_cons, List.length_drop]
    omega
  · simp only [List.length_cons]
    omega

/-- A player reference extracted from a result row: a stable id from a
mention (username filled in later), or a bare username. -/
structure RowPlayer where
  discordId : Option (List Char)
  username : List Char
deriving DecidableEq

/-- The player-extraction part of `parseResultRow` applied to the text
after the `N/6:` prefix: all mentions first, then every bare username
whose span is not contained in a mention span. -/
def parsePlayersSection (cs : List Char) : List RowPlayer :=
  let mentions := scanMentions 0 cs
  let names := scanUsernames 0 cs
  mentions.map (fun m => ⟨some m.id, []⟩) ++
    ((names.filter fun n =>
        !(mentions.any fun m => m.start ≤ n.start && n.stop ≤ m.stop)).map
      fun n => ⟨none, n.name⟩)

/-! ### Claim C9: a line of mentions parses to one player per mention -/

/-- The text of one Discord mention token, `<@123>` or `<@!123>`. -/
def renderMention (bang : Bool) (ds : List Char) : List Char :=
  '<' :: '@' :: ((if bang then ['!'] else []) ++ ds ++ ['>'])

/-- The length of a rendered mention. -/
def mentionLen (m : Bool × List Char) : Nat :=
  (if m.1 then 4 else 3) + m.2.length

/-- A players section consisting only of space-separated mentions. -/
def mentionLine : List (Bool × List Char) → List Char
  | [] => []
  | m :: rest => renderMention m.1 m.2 ++ ' ' :: mentionLine rest

/-- The mention tokens such a line should produce. -/
def mentionSpansFrom (pos : Nat) : List (Bool × List Char) → List MentionTok
  | [] => []
  | m :: rest => ⟨pos, pos + mentionLen m, m.2⟩ ::
      mentionSpansFrom (pos + mentionLen m + 1) rest

/-- The bare-username tokens such a line produces before filtering:
the `@digits` text embedded inside every bang-less mention. -/
def nameToksFrom (pos : Nat) : List (Bool × List Char) → List NameTok
  | [] => []
  | m :: rest =>
      (if m.1 then [] else [⟨pos + 1, pos + 1 + (1 + m.2.length), m.2⟩]) ++
      nameToksFrom (pos + mentionLen m + 1) rest

lemma takeWhile_all_cons (p : Char → Bool) (ds : List Char) (x : Char) (t : List Char)
    (hds : ∀ c ∈ ds, p c = true) (hx : p x = false) :
    (ds ++ x :: t).takeWhile p = ds ∧ (ds ++ x :: t).dropWhile p = x :: t := by
  induction ds with
  | nil =>
    simp [List.takeWhile_cons, List.dropWhile_cons, hx]
  | cons c cs ih =>
    have hc : p c = true := hds c (List.mem_cons_self c cs)
    have := ih fun d hd => hds d (List.mem_cons_of_mem c hd)
    simp [List.takeWhile_cons, List.dropWhile_cons, hc, this]

lemma mentionTail_render (ds : List Char) (t : List Char) (hne : ds ≠ [])
    (hdig : ∀ c ∈ ds, Char.isDigit c = true) :
    mentionTail (ds ++ '>' :: t) = some (ds, ds.length + 1) := by
  have h := takeWhile_all_cons Char.isDigit ds '>' t hdig (by decide)
  unfold mentionTail
  rw [h.1, h.2, if_neg (by simpa using hne)]
  rfl

/-- Matching the mention pattern at the start of a rendered mention
succeeds, captures the digits and spans the whole token. -/
lemma matchMentionAt_render (bang : Bool) (ds : List Char) (t : List Char)
    (hne : ds ≠ []) (hdig : ∀ c ∈ ds, Char.isDigit c = true) :
    matchMentionAt (renderMention bang ds ++ t) = some (ds, mentionLen (bang, ds)) := by
  cases bang with
  | true =>
    have hshape : renderMention true ds ++ t
        = '<' :: '@' :: '!' :: (ds ++ '>' :: t) := by
      simp [renderMention]
    rw [hshape]
    unfold matchMentionAt
    dsimp only
    rw [if_pos ⟨rfl, rfl⟩]
    simp only [List.head?_cons]
    rw [if_pos (by trivial)]
    simp only [List.tail_cons]
    rw [mentionTail_render ds t hne hdig]
    have hml : mentionLen (true, ds) = 4 + ds.length := by simp [mentionLen]
    rw [hml]
    simp only [Option.map_some', Option.some.injEq, Prod.mk.injEq]
    exact ⟨by trivial, by omega⟩
  | false =>
    have hshape : renderMention false ds ++ t = '<' :: '@' :: (ds ++ '>' :: t) := by
      simp [renderMention]
    rw [hshape]
    unfold matchMentionAt
    dsimp only
    rw [if_pos ⟨rfl, rfl⟩]
    have hhead : (ds ++ '>' :: t).head? ≠ some '!' := by
      cases ds with
      | nil => exact absurd rfl hne
      | cons d ds2 =>
        have hd : Char.isDigit d = true := hdig d (List.mem_cons_self d ds2)
        simp only [List.cons_append, List.head?_cons]
        intro hcontra
        have hd2 : d = '!' := Option.some.inj hcontra
        rw [hd2] at hd
        cases hd
    rw [if_neg hhead]
    rw [mentionTail_render ds t hne hdig]
    have hml : mentionLen (false, ds) = 3 + ds.length := by simp [mentionLen]
    rw [hml]
    simp only [Option.map_some', Option.some.injEq, Prod.mk.injEq]
    exact ⟨by trivial, by omega⟩

lemma matchMentionAt_not_head (c : Char) (l : List Char) (hc : ¬ c = '<') :
    matchMentionAt (c :: l) = none := by
  cases l with
  | nil => rfl
  | cons c2 r =>
    unfold matchMentionAt
    dsimp only
    rw [if_neg fun h => hc h.1]

lemma matchUsernameAt_not_head (c : Char) (l : List Char) (hc : ¬ c = '@') :
    matchUsernameAt (c :: l) = none := by
  unfold matchUsernameAt
  dsimp only
  rw [if_neg hc]

/-- A bare-username match at `@` needs a word character right after
it; `!` is not one. -/
lemma matchUsernameAt_bang (r : List Char) :
    matchUsernameAt ('@' :: '!' :: r) = none := by
  unfold matchUsernameAt
  dsimp only
  rw [if_pos rfl]
  rw [if_pos (by simp [List.takeWhile_cons]; decide)]

/-- Matching the username pattern at the `@` of a bang-less mention
captures exactly the digits. -/
lemma matchUsernameAt_digits (ds : List Char) (t : List Char) (hne : ds ≠ [])
    (hdig : ∀ c ∈ ds, Char.isDigit c = true) :
    matchUsernameAt ('@' :: (ds ++ '>' :: t)) = some (ds, 1 + ds.length) := by
  have hword : ∀ c ∈ ds, isWordChar c = true := by
    intro c hc
    have := hdig c hc
    unfold isWordChar
    unfold Char.isAlphanum
    rw [this]
    simp
  have h := takeWhile_all_cons isWordChar ds '>' t hword (by decide)
  unfold matchUsernameAt
  dsimp only
  rw [if_pos rfl, h.1, if_neg (by simpa using hne)]

lemma scanMentions_cons_none (pos : Nat) (c : Char) (rest : List Char)
    (h : matchMentionAt (c :: rest) = none) :
    scanMentions pos (c :: rest) = scanMentions (pos + 1) rest := by
  rw [scanMentions, h]

lemma scanMentions_cons_some (pos : Nat) (c : Char) (rest : List Char)
    (dl : List Char × Nat) (h : matchMentionAt (c :: rest) = some dl) :
    scanMentions pos (c :: rest)
      = ⟨pos, pos + dl.2, dl.1⟩ :: scanMentions (pos + dl.2) (rest.drop (dl.2 - 1)) := by
  rw [scanMentions, h]

lemma scanUsernames_cons_none (pos : Nat) (c : Char) (rest : List Char)
    (h : matchUsernameAt (c :: rest) = none) :
    scanUsernames pos (c :: rest) = scanUsernames (pos + 1) rest := by
  rw [scanUsernames, h]

lemma scanUsernames_cons_some (pos : Nat) (c : Char) (rest : List Char)
    (dl : List Char × Nat) (h : matchUsernameAt (c :: rest) = some dl) :
    scanUsernames pos (c :: rest)
      = ⟨pos, pos + dl.2, dl.1⟩ :: scanUsernames (pos + dl.2) (rest.drop (dl.2 - 1)) := by
  rw [scanUsernames, h]

/-- Scanning for mentions across a prefix with no `<` just advances. -/
lemma scanMentions_inert (inert : List Char) (hin : ∀ c ∈ inert, ¬ c = '<') :
    ∀ (pos : Nat) (cs : List Char),
      scanMentions pos (inert ++ cs) = scanMentions (pos + inert.length) cs := by
  induction inert with
  | nil =>
    intro pos cs
    simp
  | cons c r ih =>
    intro pos cs
    rw [List.cons_append,
      scanMentions_cons_none pos c (r ++ cs)
        (matchMentionAt_not_head c (r ++ cs) (hin c (List.mem_cons_self c r))),
      ih (fun x hx => hin x (List.mem_cons_of_mem c hx)) (pos + 1) cs]
    have harith : pos + 1 + r.length = pos + (c :: r).length := by
      simp only [List.length_cons]
      omega
    rw [harith]

/-- Scanning for bare usernames across a prefix with no `@` just
advances. -/
lemma scanUsernames_inert (inert : List Char) (hin : ∀ c ∈ inert, ¬ c = '@') :
    ∀ (pos : Nat) (cs : List Char),
      scanUsernames pos (inert ++ cs) = scanUsernames (pos + inert.length) cs := by
  induction inert with
  | nil =>
    intro pos cs
    simp
  | cons c r ih =>
    intro pos cs
    rw [List.cons_append,
      scanUsernames_cons_none pos c (r ++ cs)
        (matchUsernameAt_not_head c (r ++ cs) (hin c (List.mem_cons_self c r))),
      ih (fun x hx => hin x (List.mem_cons_of_mem c hx)) (pos + 1) cs]
    have harith : pos + 1 + r.length = pos + (c :: r).length := by
      simp only [List.length_cons]
      omega
    rw [harith]

/-- The mention pass over a line of mentions finds exactly the
rendered mentions, in order, with their spans. -/
lemma scanMentions_mentionLine (ms : List (Bool × List Char))
    (hms : ∀ m ∈ ms, m.2 ≠ [] ∧ ∀ c ∈ m.2, Char.isDigit c = true) :
    ∀ pos, scanMentions pos (mentionLine ms) = mentionSpansFrom pos ms := by
  induction ms with
  | nil =>
    intro pos
    rw [show mentionLine [] = [] from rfl, scanMentions]
    rfl
  | cons m rest ih =>
    intro pos
    obtain ⟨hne, hdig⟩ := hms m (List.mem_cons_self m rest)
    have hmatch : matchMentionAt (renderMention m.1 m.2 ++ ' ' :: mentionLine rest)
        = some (m.2, mentionLen m) :=
      matchMentionAt_render m.1 m.2 (' ' :: mentionLine rest) hne hdig
    have hshape : renderMention m.1 m.2 ++ ' ' :: mentionLine rest
        = '<' :: ('@' :: ((if m.1 then ['!'] else []) ++ m.2 ++ ['>'])
            ++ ' ' :: mentionLine rest) := by
      simp [renderMention]
    have hline : mentionLine (m :: rest)
        = renderMention m.1 m.2 ++ ' ' :: mentionLine rest := rfl
    rw [hshape] at hmatch
    rw [hline, hshape]
    rw [scanMentions_cons_some pos _ _ _ hmatch]
    have hlen : mentionLen m = (renderMention m.1 m.2).length := by
      cases hm : m.1 <;> simp [mentionLen, renderMention, hm] <;> omega
    have hdrop : (('@' :: ((if m.1 then ['!'] else []) ++ m.2 ++ ['>'])
          ++ ' ' :: mentionLine rest)).drop ((m.2, mentionLen m).2 - 1)
        = ' ' :: mentionLine rest := by
      have h1 : ('@' :: ((if m.1 then ['!'] else []) ++ m.2 ++ ['>'])
            ++ ' ' :: mentionLine rest)
          = ('@' :: ((if m.1 then ['!'] else []) ++ m.2 ++ ['>']))
            ++ ' ' :: mentionLine rest := by
        simp
      rw [h1]
      apply List.drop_left'
      have : ('@' :: ((if m.1 then ['!'] else []) ++ m.2 ++ ['>'])).length
          = mentionLen m - 1 := by
        cases hm : m.1 <;> simp [mentionLen, renderMention, hm] <;> omega
      rw [this]
    rw [hdrop]
    rw [scanMentions_cons_none _ ' ' _ (matchMentionAt_not_head ' ' _ (by decide))]
    rw [ih (fun x hx => hms x (List.mem_cons_of_mem m hx)) _]
    rfl

/-- The bare-username pass over a line of mentions finds exactly the
`@digits` runs embedded in the bang-less mentions. -/
lemma scanUsernames_mentionLine (ms : List (Bool × List Char))
    (hms : ∀ m ∈ ms, m.2 ≠ [] ∧ ∀ c ∈ m.2, Char.isDigit c = true) :
    ∀ pos, scanUsernames pos (mentionLine ms) = nameToksFrom pos ms := by
  induction ms with
  | nil =>
    intro pos
    rw [show mentionLine [] = [] from rfl, scanUsernames]
    rfl
  | cons m rest ih =>
    intro pos
    obtain ⟨hne, hdig⟩ := hms m (List.mem_cons_self m rest)
    have hline : mentionLine (m :: rest)
        = renderMention m.1 m.2 ++ ' ' :: mentionLine rest := rfl
    rw [hline]
    have hihr := ih fun x hx => hms x (List.mem_cons_of_mem m hx)
    cases hm : m.1 with
    | true =>
      have hshape : renderMention true m.2 ++ ' ' :: mentionLine rest
          = '<' :: '@' :: '!' :: ((m.2 ++ ['>', ' ']) ++ mentionLine rest) := by
        simp [renderMention]
      rw [hshape]
      rw [scanUsernames_cons_none _ '<' _ (matchUsernameAt_not_head '<' _ (by decide))]
      rw [scanUsernames_cons_none _ '@' _ (matchUsernameAt_bang _)]
      have hview : '!' :: ((m.2 ++ ['>', ' ']) ++ mentionLine rest)
          = ('!' :: (m.2 ++ ['>', ' '])) ++ mentionLine rest := by
        simp
      rw [hview]
      have hinert : ∀ c ∈ '!' :: (m.2 ++ ['>', ' ']), ¬ c = '@' := by
        intro c hc
        rcases List.mem_cons.mp hc with rfl | hc2
        · decide
        · rcases List.mem_append.mp hc2 with hc3 | hc3
          · intro hcontra
            rw [hcontra] at hc3
            exact absurd (hdig '@' hc3) (by decide)
          · rcases List.mem_cons.mp hc3 with rfl | hc4
            · decide
            · rw [List.mem_singleton.mp hc4]
              decide
      rw [scanUsernames_inert ('!' :: (m.2 ++ ['>', ' '])) hinert (pos + 1 + 1)
        (mentionLine rest)]
      have harith : pos + 1 + 1 + ('!' :: (m.2 ++ ['>', ' '])).length
          = pos + mentionLen m + 1 := by
        simp [mentionLen, hm]
        omega
      rw [harith, hihr]
      rw [show nameToksFrom pos (m :: rest)
          = (if m.1 then [] else [⟨pos + 1, pos + 1 + (1 + m.2.length), m.2⟩])
            ++ nameToksFrom (pos + mentionLen m + 1) rest from rfl, hm]
      simp
    | false =>
      have hshape : renderMention false m.2 ++ ' ' :: mentionLine rest
          = '<' :: '@' :: (m.2 ++ '>' :: ' ' :: mentionLine rest) := by
        simp [renderMention]
      rw [hshape]
      rw [scanUsernames_cons_none _ '<' _ (matchUsernameAt_not_head '<' _ (by decide))]
      have hmatch := matchUsernameAt_digits m.2 (' ' :: mentionLine rest) hne hdig
      rw [scanUsernames_cons_some _ '@' _ _ hmatch]
      have hdrop : (m.2 ++ '>' :: ' ' :: mentionLine rest).drop
            ((m.2, 1 + m.2.length).2 - 1)
          = '>' :: ' ' :: mentionLine rest := by
        apply List.drop_left'
        omega
      rw [hdrop]
      rw [scanUsernames_cons_none _ '>' _ (matchUsernameAt_not_head '>' _ (by decide))]
      rw [scanUsernames_cons_none _ ' ' _ (matchUsernameAt_not_head ' ' _ (by decide))]
      have harith : pos + 1 + (m.2, 1 + m.2.length).2 + 1 + 1 = pos + mentionLen m + 1 := by
        simp [mentionLen, hm]
        omega
      rw [harith, hihr]
      rw [show nameToksFrom pos (m :: rest)
          = (if m.1 then [] else [⟨pos + 1, pos + 1 + (1 + m.2.length), m.2⟩])
            ++ nameToksFrom (pos + mentionLen m + 1) rest from rfl, hm]
      simp

/-- Every bare-username token found in a line of mentions lies inside
the span of one of the mentions. -/
lemma nameToks_inside (ms : List (Bool × List Char)) :
    ∀ pos, ∀ n ∈ nameToksFrom pos ms,
      ∃ sp ∈ mentionSpansFrom pos ms, sp.start ≤ n.start ∧ n.stop ≤ sp.stop := by
  induction ms with
  | nil =>
    intro pos n hn
    exact absurd hn (List.not_mem_nil n)
  | cons m rest ih =>
    intro pos n hn
    rw [show nameToksFrom pos (m :: rest)
        = (if m.1 then [] else [⟨pos + 1, pos + 1 + (1 + m.2.length), m.2⟩])
          ++ nameToksFrom (pos + mentionLen m + 1) rest from rfl] at hn
    have hspan : mentionSpansFrom pos (m :: rest)
        = ⟨pos, pos + mentionLen m, m.2⟩ ::
          mentionSpansFrom (pos + mentionLen m + 1) rest := rfl
    rcases List.mem_append.mp hn with h1 | h1
    · cases hm : m.1 with
      | true =>
        rw [hm] at h1
        simp at h1
      | false =>
        rw [hm] at h1
        simp at h1
        have hml : 3 + m.2.length ≤ mentionLen m := by
          simp [mentionLen, hm]
        subst h1
        refine ⟨⟨pos, pos + mentionLen m, m.2⟩, hspan ▸ List.mem_cons_self _ _, ?_, ?_⟩
        · show pos ≤ pos + 1
          omega
        · show pos + 1 + (1 + m.2.length) ≤ pos + mentionLen m
          omega
    · obtain ⟨sp, hsp, h2⟩ := ih (pos + mentionLen m + 1) n h1
      exact ⟨sp, hspan ▸ List.mem_cons_of_mem _ hsp, h2⟩

lemma mentionSpansFrom_map (ms : List (Bool × List Char)) :
    ∀ pos, (mentionSpansFrom pos ms).map (fun sp => (⟨some sp.id, []⟩ : RowPlayer))
      = ms.map fun m => ⟨some m.2, []⟩ := by
  induction ms with
  | nil =>
    intro pos
    rfl
  | cons m rest ih =>
    intro pos
    rw [show mentionSpansFrom pos (m :: rest)
        = ⟨pos, pos + mentionLen m, m.2⟩ ::
          mentionSpansFrom (pos + mentionLen m + 1) rest from rfl]
    rw [List.map_cons, ih (pos + mentionLen m + 1), List.map_cons]

/-- C9: on a players section consisting only of mentions (each id a
nonempty digit run), the two-pass extraction emits exactly one
participant per mention, in order, each carrying the mention's id —
every bare-`@name` match is discarded because its span lies inside a
mention's span, so no name embedded in a mention is double-counted. -/
theorem parsePlayersSection_only_mentions (ms : List (Bool × List Char))
    (hms : ∀ m ∈ ms, m.2 ≠ [] ∧ ∀ c ∈ m.2, Char.isDigit c = true) :
    parsePlayersSection (mentionLine ms)
      = ms.map fun m => ⟨some m.2, []⟩ := by
  unfold parsePlayersSection
  dsimp only
  rw [scanMentions_mentionLine ms hms 0, scanUsernames_mentionLine ms hms 0]
  have hfilter : ((nameToksFrom 0 ms).filter fun n =>
      !((mentionSpansFrom 0 ms).any fun m => m.start ≤ n.start && n.stop ≤ m.stop))
      = [] := by
    rw [List.filter_eq_nil_iff]
    intro n hn
    obtain ⟨sp, hsp, h1, h2⟩ := nameToks_inside ms 0 n hn
    intro hcontra
    have hany : ((mentionSpansFrom 0 ms).any fun m =>
        m.start ≤ n.start && n.stop ≤ m.stop) = true :=
      List.any_eq_true.mpr ⟨sp, hsp, by simp [h1, h2]⟩
    rw [hany] at hcontra
    exact absurd hcontra (by decide)
  rw [hfilter]
  simp only [List.map_nil, List.append_nil]
  exact mentionSpansFrom_map ms 0

/-- Witness for C9: the line `<@123> <@!456>` parses to exactly the
two mention participants and no bare-name participant. -/
theorem parsePlayersSection_only_mentions_witness :
    parsePlayersSection (mentionLine [(false, ['1', '2', '3']), (true, ['4', '5', '6'])])
      = [(⟨some ['1', '2', '3'], []⟩ : RowPlayer), ⟨some ['4', '5', '6'], []⟩] :=
  parsePlayersSection_only_mentions [(false, ['1', '2', '3']), (true, ['4', '5', '6'])]
    (by decide)

/-!
### C5: the gameDate computed by parseWordleMessage

`parseWordleMessage` derives the game date from the announcement message's
timestamp with JS `Date` built-ins (statsService.ts):

    const messageDate = new Date(message.createdAt);
    messageDate.setDate(messageDate.getDate() - 1);
    const gameDate = messageDate.toISOString().split('T')[0];

The built-ins are modelled for a zero-UTC-offset clock (`getDate`/`setDate`
read and write local time, `toISOString` always prints UTC; the two agree
when the process runs with a UTC clock, the usual server setting). An
epoch-millisecond timestamp `t : Nat` decomposes as
`t = (t / msPerDay) * msPerDay + t % msPerDay`; the calendar fields of a
day number are computed by `civilFromDays` (the standard civil-calendar
algorithm realising ECMA-262 `YearFromTime`/`MonthFromTime`/`DateFromTime`),
and `setDate` re-assembles an epoch day number from fields with the
ECMA-262 `MakeDay` formula, embedded as `makeDayShifted` with a constant
`+719469` shift so the value stays in `Nat` even when the supplied
day-of-month `getDate() - 1` is `0` (a month's first day, where `MakeDay`
lands on the last day of the previous month).

The per-day check `prevDayOk n` verifies both that the `setDate` arithmetic
lands exactly on day `n - 1` and that the calendar fields of day `n - 1`
are the spec-side "same calendar date minus one day" of the fields of day
`n`; `checkRange` extends the check to an interval of day numbers by
fuel-bounded binary splitting (keeping kernel recursion shallow), and the
chunk lemmas below establish it for every day in `[1, 40001)`, i.e. every
date from 1970-01-02 through 2079-07-08.
-/

/-- Milliseconds per day (the ECMA-262 `msPerDay` constant). -/
def msPerDay : Nat := 86400000

/-- Calendar fields `(year, month, day)` of a day number counted from
1970-01-01, by Howard Hinnant's `civil_from_days` algorithm for the
proleptic Gregorian calendar (the calendar prescribed by ECMA-262 for
`Date` field accessors). -/
def civilFromDays (z : Nat) : Nat × Nat × Nat :=
  let z' := z + 719468
  let era := z' / 146097
  let doe := z' % 146097
  let yoe := (doe - doe / 1460 + doe / 36524 - doe / 146096) / 365
  let y := yoe + era * 400
  let doy := doe - (365 * yoe + yoe / 4 - yoe / 100)
  let mp := (5 * doy + 2) / 153
  let d := doy - (153 * mp + 2) / 5 + 1
  let m := if mp < 10 then mp + 3 else mp - 9
  (if m ≤ 2 then y + 1 else y, m, d)

/-- ECMA-262 `MakeDay` for year `y`, 1-based month `m` and day-of-month
argument `d1`, shifted by the constant `+719469` so the result is a `Nat`
for every `d1 ≥ 0` (for `d1 = 0`, which `setDate(getDate() - 1)` passes on
the first of a month, unshifted `MakeDay` is the last day of the previous
month and can be negative near the epoch). Concretely
`makeDayShifted y m d1 = MakeDay(y, m - 1, d1) + 719469` where `MakeDay`
counts days from 1970-01-01 and takes a 0-based month. -/
def makeDayShifted (y m d1 : Nat) : Nat :=
  let y' := if m ≤ 2 then y - 1 else y
  let era := y' / 400
  let yoe := y' % 400
  let mp := (m + 9) % 12
  era * 146097 + yoe * 365 + yoe / 4 - yoe / 100 + (153 * mp + 2) / 5 + d1

/-- Gregorian leap-year rule. -/
def isLeapYear (y : Nat) : Bool :=
  (y % 4 = 0 && !(y % 100 = 0)) || y % 400 = 0

/-- Number of days in month `m` of year `y`. -/
def daysInMonth (y m : Nat) : Nat :=
  if m = 2 then (if isLeapYear y then 29 else 28)
  else if m = 4 || m = 6 || m = 9 || m = 11 then 30
  else 31

/-- Spec-side definition, written from the spec's words rather than the
source: the calendar date one day before the given `(year, month, day)` —
decrement the day, rolling into the previous month (of its proper length)
or the previous December 31 as needed. -/
def specPrevCalendarDay : Nat × Nat × Nat → Nat × Nat × Nat
  | (y, m, d) =>
    if 1 < d then (y, m, d - 1)
    else if 1 < m then (y, m - 1, daysInMonth y (m - 1))
    else (y - 1, 12, 31)

/-- Per-day check: for day number `n`, the `setDate(getDate() - 1)`
arithmetic (`MakeDay` on the fields of day `n` with day-of-month lowered
by one) lands exactly on day `n - 1`, and the calendar fields of day
`n - 1` are the spec-side previous calendar date of the fields of day
`n`. -/
def prevDayOk (n : Nat) : Bool :=
  match civilFromDays n with
  | (y, m, d) =>
    makeDayShifted y m (d - 1) == n - 1 + 719469
      && civilFromDays (n - 1) == specPrevCalendarDay (y, m, d)

/-- Fuel-bounded binary-splitting range check: `checkRange fuel lo hi`
verifies `prevDayOk` on every day in `[lo, hi)` (given enough fuel),
keeping the recursion depth logarithmic so kernel reduction stays
shallow. -/
def checkRange : Nat → Nat → Nat → Bool
  | 0, _, hi => decide (hi = 0)
  | fuel + 1, lo, hi =>
    if hi ≤ lo then true
    else if hi = lo + 1 then prevDayOk lo
    else checkRange fuel lo ((lo + hi) / 2) && checkRange fuel ((lo + hi) / 2) hi

/-- Model of `messageDate.setDate(messageDate.getDate() - 1)` on an
epoch-millisecond timestamp under a UTC clock: recompute the day number
from the timestamp's calendar fields with the day-of-month lowered by one
(ECMA-262 `MakeDay`, here in its shifted `Nat` form), keeping the
time-of-day part unchanged. -/
def jsSetDatePred (t : Nat) : Nat :=
  (makeDayShifted (civilFromDays (t / msPerDay)).1 (civilFromDays (t / msPerDay)).2.1
      ((civilFromDays (t / msPerDay)).2.2 - 1) - 719469) * msPerDay + t % msPerDay

/-- Two-digit zero padding, as `toISOString` prints months and days. -/
def pad2 (n : Nat) : String :=
  if n < 10 then "0" ++ toString n else toString n

/-- Four-digit zero padding, as `toISOString` prints years in `[0, 9999]`. -/
def pad4 (n : Nat) : String :=
  if n < 10 then "000" ++ toString n
  else if n < 100 then "00" ++ toString n
  else if n < 1000 then "0" ++ toString n
  else toString n

/-- Date part of `toISOString()` — what `.split('T')[0]` keeps:
`YYYY-MM-DD`. -/
def isoDateString (f : Nat × Nat × Nat) : String :=
  pad4 f.1 ++ "-" ++ pad2 f.2.1 ++ "-" ++ pad2 f.2.2

/-- Model of the `gameDate` value computed by `parseWordleMessage` from a
message timestamp `t` (epoch milliseconds, UTC clock): apply
`setDate(getDate() - 1)` and print the date part of `toISOString()`. -/
def gameDateOfTimestamp (t : Nat) : String :=
  isoDateString (civilFromDays (jsSetDatePred t / msPerDay))

/-- Spec-side definition of the expected game date: the calendar date of
the message's timestamp minus one day, in `YYYY-MM-DD` form. -/
def specGameDate (t : Nat) : String :=
  isoDateString (specPrevCalendarDay (civilFromDays (t / msPerDay)))

/-- Anchor: day number 0 is 1970-01-01. -/
lemma civilFromDays_epoch : civilFromDays 0 = (1970, 1, 1) := by decide

/-- Soundness of the binary-splitting range check: if `checkRange` accepts
an interval, `prevDayOk` holds at every day in it. -/
lemma checkRange_sound :
    ∀ fuel lo hi, checkRange fuel lo hi = true →
      ∀ n, lo ≤ n → n < hi → prevDayOk n = true := by
  intro fuel
  induction fuel with
  | zero =>
    intro lo hi h n h1 h2
    simp only [checkRange, decide_eq_true_eq] at h
    omega
  | succ fuel ih =>
    intro lo hi h n h1 h2
    rw [checkRange] at h
    split_ifs at h with hle heq
    · omega
    · have hn : n = lo := by omega
      rw [hn]
      exact h
    · rcases Bool.and_eq_true_iff.mp h with ⟨hL, hR⟩
      by_cases hn : n < (lo + hi) / 2
      · exact ih lo ((lo + hi) / 2) hL n h1 hn
      · exact ih ((lo + hi) / 2) hi hR n (by omega) h2

/-- Unpacking of a successful per-day check into its two equations. -/
lemma prevDayOk_spec (n : Nat) (h : prevDayOk n = true) :
    makeDayShifted (civilFromDays n).1 (civilFromDays n).2.1 ((civilFromDays n).2.2 - 1)
        = n - 1 + 719469
      ∧ civilFromDays (n - 1) = specPrevCalendarDay (civilFromDays n) := by
  unfold prevDayOk at h
  rcases hc : civilFromDays n with ⟨y, m, d⟩
  rw [hc] at h
  dsimp only at h
  simp only [Bool.and_eq_true, beq_iff_eq] at h
  exact h

set_option maxHeartbeats 8000000 in
lemma checkRange_chunk1 : checkRange 13 1 4001 = true := by decide

set_option maxHeartbeats 8000000 in
lemma checkRange_chunk2 : checkRange 13 4001 8001 = true := by decide

set_option maxHeartbeats 8000000 in
lemma checkRange_chunk3 : checkRange 13 8001 12001 = true := by decide

set_option maxHeartbeats 8000000 in
lemma checkRange_chunk4 : checkRange 13 12001 16001 = true := by decide

set_option maxHeartbeats 8000000 in
lemma checkRange_chunk5 : checkRange 13 16001 20001 = true := by decide

set_option maxHeartbeats 8000000 in
lemma checkRange_chunk6 : checkRange 13 20001 24001 = true := by decide

set_option maxHeartbeats 8000000 in
lemma checkRange_chunk7 : checkRange 13 24001 28001 = true := by decide

set_option maxHeartbeats 8000000 in
lemma checkRange_chunk8 : checkRange 13 28001 32001 = true := by decide

set_option maxHeartbeats 8000000 in
lemma checkRange_chunk9 : checkRange 13 32001 36001 = true := by decide

set_option maxHeartbeats 8000000 in
lemma checkRange_chunk10 : checkRange 13 36001 40001 = true := by decide

/-- Every day number in `[1, 40001)` (1970-01-02 through 2079-07-08)
passes the per-day check. -/
lemma prevDayOk_all (n : Nat) (h1 : 1 ≤ n) (h2 : n < 40001) : prevDayOk n = true := by
  by_cases c1 : n < 4001
  · exact checkRange_sound 13 1 4001 checkRange_chunk1 n h1 c1
  by_cases c2 : n < 8001
  · exact checkRange_sound 13 4001 8001 checkRange_chunk2 n (by omega) c2
  by_cases c3 : n < 12001
  · exact checkRange_sound 13 8001 12001 checkRange_chunk3 n (by omega) c3
  by_cases c4 : n < 16001
  · exact checkRange_sound 13 12001 16001 checkRange_chunk4 n (by omega) c4
  by_cases c5 : n < 20001
  · exact checkRange_sound 13 16001 20001 checkRange_chunk5 n (by omega) c5
  by_cases c6 : n < 24001
  · exact checkRange_sound 13 20001 24001 checkRange_chunk6 n (by omega) c6
  by_cases c7 : n < 28001
  · exact checkRange_sound 13 24001 28001 checkRange_chunk7 n (by omega) c7
  by_cases c8 : n < 32001
  · exact checkRange_sound 13 28001 32001 checkRange_chunk8 n (by omega) c8
  by_cases c9 : n < 36001
  · exact checkRange_sound 13 32001 36001 checkRange_chunk9 n (by omega) c9
  exact checkRange_sound 13 36001 40001 checkRange_chunk10 n (by omega) h2

/-- C5: for every message timestamp `t` (epoch milliseconds, UTC clock)
whose day number lies in the verified interval `[1, 40001)` — every
instant from 1970-01-02 through 2079-07-08 — the `gameDate` computed by
`parseWordleMessage` (subtract one from the day-of-month via `setDate`,
then print the ISO date) equals the calendar date of the timestamp minus
one day in `YYYY-MM-DD` form, the spec-side reading. -/
theorem parseWordleMessage_gameDate (t : Nat)
    (h1 : msPerDay ≤ t) (h2 : t < 40001 * msPerDay) :
    gameDateOfTimestamp t = specGameDate t := by
  have hms : 0 < msPerDay := by decide
  have hn1 : 1 ≤ t / msPerDay := by
    rw [Nat.le_div_iff_mul_le hms]
    omega
  have hn2 : t / msPerDay < 40001 := by
    rw [Nat.div_lt_iff_lt_mul hms]
    omega
  obtain ⟨hmk, hprev⟩ :=
    prevDayOk_spec (t / msPerDay) (prevDayOk_all (t / msPerDay) hn1 hn2)
  have hdiv : jsSetDatePred t / msPerDay = t / msPerDay - 1 := by
    unfold jsSetDatePred
    rw [hmk]
    have h719 : t / msPerDay - 1 + 719469 - 719469 = t / msPerDay - 1 := by omega
    rw [h719]
    have hmod : t % msPerDay < msPerDay := Nat.mod_lt _ hms
    rw [Nat.mul_comm (t / msPerDay - 1) msPerDay, Nat.mul_add_div hms,
      Nat.div_eq_of_lt hmod, Nat.add_zero]
  unfold gameDateOfTimestamp specGameDate
  rw [hdiv, hprev]

/-- Witness for C5 at the concrete timestamp 2024-01-01T00:00:05Z
(epoch ms 1704067205000): its game date is the previous calendar day,
2023-12-31. -/
theorem parseWordleMessage_gameDate_witness :
    gameDateOfTimestamp 1704067205000 = specGameDate 1704067205000
      ∧ specGameDate 1704067205000 = "2023-12-31" :=
  ⟨parseWordleMessage_gameDate 1704067205000 (by decide) (by decide), by decide⟩

end Wanked
